import Mathlib

/-!
Shallow embedding of the "second brain" core of the claude-telegram-relay
repository: the frontmatter codec (src/utils/frontmatter.ts), capture routing
and the classification fallback (src/services/capture.ts), the scanner's
actionability rules (src/services/scanner.ts), statistics and priority scoring
(src/services/synthesis.ts), daily digest generation (src/services/digest.ts),
the scheduler's next-occurrence delay, and the fixer (src/services/fixer.ts).

Modelling conventions:
* JavaScript strings are `List Char` (`Str` below); all string primitives the
  code uses (trim, slice, indexOf, split, the specific regular expressions)
  are defined explicitly on `Str`.
* JavaScript numbers that flow through the codec are modelled as finite
  decimal numerals (`Dec`): `String(n)` is `Dec.render` and `Number(s)` on a
  string matching the codec's strict numeric pattern is `jsNumOfStr`, which
  canonicalizes exactly as JS float printing does on this range (no leading
  zeros, no trailing fraction zeros, no negative zero).
* JavaScript objects used as maps are insertion-ordered association lists;
  assignment `obj[k] = v` is `upsert`, which overwrites in place.
* Wall-clock instants are epoch milliseconds (`Int`); functions of `new Date()`
  take the relevant derived instants (`now`, start of today) as arguments.
-/

namespace Relay

/-- JavaScript strings, modelled as lists of characters. -/
abbrev Str := List Char

/-- Whitespace recognized by JS `trim` and by `\s` (restricted to the ASCII
whitespace reachable in this codebase). -/
def isWsChar (c : Char) : Bool := c = ' ' || c = '\t' || c = '\n' || c = '\r'

/-- JS `String.prototype.trimStart`. -/
def trimStart (s : Str) : Str := s.dropWhile isWsChar

/-- Remove trailing whitespace. -/
def trimEnd (s : Str) : Str := (s.reverse.dropWhile isWsChar).reverse

/-- JS `String.prototype.trim`. -/
def trim (s : Str) : Str := trimEnd (trimStart s)

/-- JS `String.prototype.slice` with two nonnegative in-range arguments
(the only way the codec calls it). -/
def slice (s : Str) (a b : Nat) : Str := (s.take b).drop a

/-- First occurrence of `pat` in a string (offset form); helper for
JS `String.prototype.indexOf`. -/
def findSubAux (pat : Str) : Str → Option Nat
  | [] => if pat.isEmpty then some 0 else none
  | c :: rest =>
    if pat.isPrefixOf (c :: rest) then some 0
    else (findSubAux pat rest).map (· + 1)

/-- JS `s.indexOf(pat, start)`, with `none` standing for `-1`. -/
def findSubFrom (s pat : Str) (start : Nat) : Option Nat :=
  (findSubAux pat (s.drop start)).map (· + start)

/-- JS `s.split("\n")`. -/
def splitNl : Str → List Str
  | [] => [[]]
  | c :: rest =>
    if c = '\n' then [] :: splitNl rest
    else
      match splitNl rest with
      | [] => [[c]]
      | h :: t => (c :: h) :: t

/-- JS `lines.join("\n")`. -/
def joinNl : List Str → Str
  | [] => []
  | [l] => l
  | l :: m :: t => l ++ '\n' :: joinNl (m :: t)

/-- JS `items.join(",")` (Array.prototype.toString). -/
def joinComma : List Str → Str
  | [] => []
  | x :: [] => x
  | x :: y :: t => x ++ ',' :: joinComma (y :: t)

/-- First character admissible for a frontmatter key: `[a-zA-Z_]`. -/
def isIdentStart (c : Char) : Bool := c.isAlpha || c = '_'

/-- A word character `\w`, i.e. `[A-Za-z0-9_]`. -/
def isWordChar (c : Char) : Bool := c.isAlphanum || c = '_'

/-- The codec's strict numeric pattern from parseValue: `^-?\d+(\.\d+)?$`. -/
def numPatternCore (s1 : Str) : Bool :=
  (!(s1.takeWhile Char.isDigit).isEmpty) &&
    match s1.dropWhile Char.isDigit with
    | [] => true
    | c :: t => if c = '.' then (!t.isEmpty) && t.all Char.isDigit else false

def numPattern (s : Str) : Bool :=
  numPatternCore (match s with
    | [] => ([] : Str)
    | c :: t => if c = '-' then t else c :: t)

/-- A finite decimal numeral: sign, integer-part digits (most significant
first) and fraction digits. Models the JS numbers that flow through the
codec (JS prints every such number in this canonical decimal form). -/
structure Dec where
  neg : Bool
  ip : List Nat
  fp : List Nat
deriving DecidableEq

/-- All entries are decimal digits. -/
def digitsOk (ds : List Nat) : Bool := ds.all (· < 10)

/-- Canonical numerals: exactly the shapes JS float printing produces on this
range — nonempty integer part without leading zeros, fraction without trailing
zeros, and no negative zero. -/
def Dec.Canonical (d : Dec) : Bool :=
  (!d.ip.isEmpty) && digitsOk d.ip && digitsOk d.fp
    && (match d.ip with | 0 :: rest => rest.isEmpty | _ => true)
    && (match d.fp.getLast? with | some 0 => false | _ => true)
    && (!(d.neg && d.ip == [0] && d.fp.isEmpty))

/-- Render a digit. -/
def digitToChar (d : Nat) : Char := Char.ofNat (48 + d)

/-- Render a digit string. -/
def digitsToChars (ds : List Nat) : Str := ds.map digitToChar

/-- JS `String(n)` on the numbers modelled by `Dec`. -/
def Dec.render (d : Dec) : Str :=
  (if d.neg then ['-'] else []) ++ digitsToChars d.ip
    ++ (if d.fp.isEmpty then [] else '.' :: digitsToChars d.fp)

/-- Numeric value of a digit character. -/
def charToDigit (c : Char) : Nat := c.toNat - 48

/-- Drop leading zeros, keeping a single zero for the all-zero string. -/
def stripLeadingZeros (ds : List Nat) : List Nat :=
  match ds.dropWhile (· = 0) with
  | [] => [0]
  | r => r

/-- Drop trailing zeros. -/
def stripTrailingZeros (ds : List Nat) : List Nat :=
  (ds.reverse.dropWhile (· = 0)).reverse

/-- Build the canonical numeral with the given sign and digits (the value
`Number(s)` takes and `String` then prints). -/
def mkDec (neg : Bool) (ip fp : List Nat) : Dec :=
  let ip2 := stripLeadingZeros ip
  let fp2 := stripTrailingZeros fp
  ⟨neg && !(ip2 == [0] && fp2.isEmpty), ip2, fp2⟩

/-- Digits-to-numeral step of JS `Number(s)` (after the optional sign). -/
def jsNumOfDigits (neg : Bool) (s : Str) : Dec :=
  mkDec neg ((s.takeWhile Char.isDigit).map charToDigit)
    ((match s.dropWhile Char.isDigit with
      | [] => ([] : Str)
      | c :: t => if c = '.' then t else []).map charToDigit)

/-- JS `Number(s)` on strings matching the codec's numeric pattern. -/
def jsNumOfStr (raw : Str) : Dec :=
  match raw with
  | [] => jsNumOfDigits false []
  | c :: t => if c = '-' then jsNumOfDigits true t else jsNumOfDigits false (c :: t)

/-- Value of a digit string. -/
def natOfDigits (ds : List Nat) : Nat := ds.foldl (fun a d => 10 * a + d) 0

/-- The rational value a numeral denotes. -/
def Dec.toRat (d : Dec) : Rat :=
  let den : Nat := Nat.pow 10 d.fp.length
  let num : Int := (natOfDigits d.ip : Int) * (den : Int) + (natOfDigits d.fp : Int)
  Rat.divInt (if d.neg then -num else num) (den : Int)

/-- The numeral 0. -/
def Dec.zero : Dec := ⟨false, [0], []⟩

/-- Zero test on canonical numerals (JS falsiness of a number). -/
def Dec.isZero (d : Dec) : Bool := d.ip == [0] && d.fp.isEmpty

/-- The metadata values the codec stores: flat scalars and string arrays
(src/types/secondbrain.ts uses `Record<string, unknown>`; these are the
shapes the pipeline actually writes and the claims quantify over). -/
inductive JsVal where
  | str (s : Str)
  | bool (b : Bool)
  | num (d : Dec)
  | list (items : List Str)
deriving DecidableEq

/-- JS `String(value ?? "")` on metadata values. -/
def jsValToStr : JsVal → Str
  | .str s => s
  | .bool true => "true".toList
  | .bool false => "false".toList
  | .num d => d.render
  | .list xs => joinComma xs

/-- JS truthiness of a metadata value (`if (fm["key"]) ...`). -/
def jsTruthy : JsVal → Bool
  | .str s => !s.isEmpty
  | .bool b => b
  | .num d => !d.isZero
  | .list _ => true

/-- An insertion-ordered record of metadata values. -/
abbrev Record := List (Str × JsVal)

/-- JS property assignment `obj[k] = v`: overwrite in place, else append. -/
def upsert (md : Record) (k : Str) (v : JsVal) : Record :=
  match md with
  | [] => [(k, v)]
  | (k1, v1) :: t => if k1 = k then (k1, v) :: t else (k1, v1) :: upsert t k v

/-- JS property lookup `obj[k]` (`none` is `undefined`). -/
def lookupKey (md : Record) (k : Str) : Option JsVal :=
  match md with
  | [] => none
  | (k1, v1) :: t => if k1 = k then some v1 else lookupKey t k

/-- Truthiness of `fm[k]` with `undefined` falsy. -/
def fmTruthy (md : Record) (k : Str) : Bool :=
  match lookupKey md k with
  | some v => jsTruthy v
  | none => false

/-- The key-value line regex of parseFrontmatter,
`/^([a-zA-Z_][\w]*)\s*:\s*(.*)$/`; returns the two capture groups. -/
def matchKeyLine (line : Str) : Option (Str × Str) :=
  match line with
  | [] => none
  | c :: rest =>
    if isIdentStart c then
      match (rest.dropWhile isWordChar).dropWhile isWsChar with
      | c2 :: r2 =>
        if c2 = ':' then some (c :: rest.takeWhile isWordChar, r2.dropWhile isWsChar)
        else none
      | [] => none
    else none

/-- The array-item test `/^\s+-\s/.test(line)`. -/
def isArrayItemLine (line : Str) : Bool :=
  (!(line.takeWhile isWsChar).isEmpty) &&
    match line.dropWhile isWsChar with
    | c1 :: c2 :: _ => if c1 = '-' then isWsChar c2 else false
    | _ => false

/-- The array-item capture `/^\s+-\s+(.*)$/`. -/
def matchArrayItem (line : Str) : Option Str :=
  if (line.takeWhile isWsChar).isEmpty then none
  else
    match line.dropWhile isWsChar with
    | c1 :: r =>
      if c1 = '-' then
        if (r.takeWhile isWsChar).isEmpty then none
        else some (r.dropWhile isWsChar)
      else none
    | [] => none

/-- parseValue from frontmatter.ts: coerce empty / boolean / strictly numeric
raw values, keep everything else as a literal string. -/
def parseValue (raw : Str) : JsVal :=
  if raw.isEmpty then .str []
  else if raw = "true".toList then .bool true
  else if raw = "false".toList then .bool false
  else if numPattern raw then .num (jsNumOfStr raw)
  else .str raw

/-- parseArrayItems' item collection: consume consecutive array-item lines,
keeping the trimmed captures. -/
def collectArrayItems (ls : List Str) : List Str :=
  (ls.takeWhile isArrayItemLine).filterMap (fun l => (matchArrayItem l).map trim)

/-- The loop's lookahead `i + 1 < lines.length && arrayItemRegex.test(lines[i + 1])`:
the next line exists and is an array item. -/
def nextLineIsItem : List Str → Bool
  | r :: _ => isArrayItemLine r
  | [] => false

/-- The while-loop of parseFrontmatter over the YAML block's lines, with an
explicit fuel bound on the number of iterations (the loop index advances by at
least one line per iteration, so `ls.length` fuel always suffices). -/
def parseLinesGo : Nat → List Str → Record → Record
  | 0, _, md => md
  | _ + 1, [], md => md
  | n + 1, l :: rest, md =>
    match matchKeyLine l with
    | none => parseLinesGo n rest md
    | some kv =>
      if (trim kv.2).isEmpty && nextLineIsItem rest then
        parseLinesGo n (rest.dropWhile isArrayItemLine)
          (upsert md kv.1 (.list (collectArrayItems rest)))
      else
        parseLinesGo n rest (upsert md kv.1 (parseValue (trim kv.2)))

/-- The while-loop of parseFrontmatter over the YAML block's lines. -/
def parseLines (ls : List Str) (md : Record) : Record := parseLinesGo ls.length ls md

/-- Result of decoding a document. -/
structure FrontmatterResult where
  metadata : Record
  content : Str
deriving DecidableEq

/-- parseFrontmatter from src/utils/frontmatter.ts. Total by construction:
every input string yields a result (the function never throws). -/
def parseFrontmatter (fileContent : Str) : FrontmatterResult :=
  let trimmed := trimStart fileContent
  if !("---".toList.isPrefixOf trimmed) then ⟨[], fileContent⟩
  else
    match findSubFrom trimmed ("---".toList) 3 with
    | none => ⟨[], fileContent⟩
    | some endIndex =>
      let yamlBlock := trim (slice trimmed 3 endIndex)
      let rest := trimmed.drop (endIndex + 3)
      let content := match rest with
        | [] => ([] : Str)
        | c :: t => if c = '\n' then t else c :: t
      if yamlBlock.isEmpty then ⟨[], trim content⟩
      else ⟨parseLines (splitNl yamlBlock) [], trim content⟩

/-- The lines one metadata entry contributes to the serialized document. -/
def entryLines (e : Str × JsVal) : List Str :=
  match e.2 with
  | .list items => (e.1 ++ ":".toList) :: items.map (fun it => "  - ".toList ++ it)
  | v => [e.1 ++ ": ".toList ++ jsValToStr v]

/-- stringifyFrontmatter from src/utils/frontmatter.ts. -/
def stringifyFrontmatter (metadata : Record) (content : Str) : Str :=
  joinNl ("---".toList :: ((metadata.map entryLines).flatten ++ ["---".toList, [], content]))

/-- Join a list of strings with a separator (JS Array.prototype.join). -/
def joinSep (sep : Str) : List Str → Str
  | [] => []
  | x :: [] => x
  | x :: y :: t => x ++ sep ++ joinSep sep (y :: t)

/-- Occurrence test for the frontmatter delimiter inside a value. -/
def hasTripleDash (s : Str) : Bool := (findSubAux "---".toList s).isSome

/-- A string accepted by the key-line pattern as a whole key:
`[a-zA-Z_][\w]*`. -/
def wfKey (k : Str) : Bool :=
  match k with
  | [] => false
  | c :: t => isIdentStart c && t.all isWordChar

/-- A string value the serializer can frame losslessly: invariant under trim,
single-line, free of the delimiter, and not subject to parseValue's boolean or
numeric coercion (the empty string is allowed — it round-trips as the empty
scalar). -/
def wfStrVal (s : Str) : Bool :=
  (trim s == s) && (!s.contains '\n') && (!hasTripleDash s)
    && (!(s == "true".toList)) && (!(s == "false".toList)) && (!numPattern s)

/-- A list item the serializer can frame losslessly: nonempty, invariant under
trim, single-line, free of the delimiter. -/
def wfItem (s : Str) : Bool :=
  (!s.isEmpty) && (trim s == s) && (!s.contains '\n') && (!hasTripleDash s)

/-- Well-formed metadata values for the round-trip law. -/
def wfVal : JsVal → Bool
  | .str s => wfStrVal s
  | .bool _ => true
  | .num d => d.Canonical
  | .list xs => (!xs.isEmpty) && xs.all wfItem

/-- Well-formed metadata entries for the round-trip law. -/
def wfEntries (md : Record) : Bool :=
  md.all (fun e => wfKey e.1 && wfVal e.2)

/-- The closed category taxonomy (src/types/secondbrain.ts). -/
inductive Category where
  | people
  | projects
  | ideas
  | admin
deriving DecidableEq

/-- The category's wire name. -/
def categoryName : Category → Str
  | .people => "people".toList
  | .projects => "projects".toList
  | .ideas => "ideas".toList
  | .admin => "admin".toList

/-- VALID_CATEGORIES from src/types/secondbrain.ts. -/
def VALID_CATEGORIES : List Str :=
  ["people".toList, "projects".toList, "ideas".toList, "admin".toList]

/-- The `newCategory as Category` cast, made explicit. -/
def categoryOfStr (s : Str) : Option Category :=
  if s = "people".toList then some .people
  else if s = "projects".toList then some .projects
  else if s = "ideas".toList then some .ideas
  else if s = "admin".toList then some .admin
  else none

/-- CATEGORY_DIRS from capture.ts / scanner.ts / fixer.ts. -/
def CATEGORY_DIRS : Category → Str
  | .people => "People".toList
  | .projects => "Projects".toList
  | .ideas => "Ideas".toList
  | .admin => "Admin".toList

/-- A classification as validated by the zod schema in capture.ts. -/
structure Classification where
  category : Category
  confidence : Dec
  reasoning : Str
  extracted_data : Record
deriving DecidableEq

/-- fallbackClassification from capture.ts: the fixed classification returned
whenever the reasoning service's response cannot be used. -/
def fallbackClassification (thought : Str) : Classification :=
  ⟨.admin, Dec.zero, "parse error — fallback classification".toList,
    [("name".toList, .str "unknown".toList), ("notes".toList, .str thought)]⟩

/-- JSON values, for the response of the reasoning service. -/
inductive Json where
  | null
  | bool (b : Bool)
  | num (d : Dec)
  | str (s : Str)
  | arr (xs : List Json)
  | obj (fields : List (Str × Json))

/-- Field lookup on a JSON object. -/
def jsonLookup (fields : List (Str × Json)) (k : Str) : Option Json :=
  match fields with
  | [] => none
  | (k1, v1) :: t => if k1 = k then some v1 else jsonLookup t k

/-- Coerce a JSON leaf into a flat metadata value (the shapes this pipeline
stores; nested objects are outside the embedded value model). -/
def jsValOfJson : Json → Option JsVal
  | .str s => some (.str s)
  | .bool b => some (.bool b)
  | .num d => some (.num d)
  | .arr xs =>
    (xs.mapM (fun x => match x with | Json.str s => some s | _ => none)).map JsVal.list
  | _ => none

/-- Convert a JSON object into a flat metadata record. -/
def recordOfJsonObj (fields : List (Str × Json)) : Option Record :=
  fields.mapM (fun kv => (jsValOfJson kv.2).map (fun v => (kv.1, v)))

/-- The zod classificationSchema of capture.ts: object with `category` drawn
from the closed enum, `confidence` a number in [0,1], `reasoning` a string and
`extracted_data` an object. -/
def validateClassification (j : Json) : Option Classification :=
  match j with
  | .obj fields =>
    match jsonLookup fields "category".toList, jsonLookup fields "confidence".toList,
        jsonLookup fields "reasoning".toList, jsonLookup fields "extracted_data".toList with
    | some (.str catS), some (.num conf), some (.str reas), some (.obj ed) =>
      match categoryOfStr catS with
      | some cat =>
        if 0 ≤ conf.toRat ∧ conf.toRat ≤ 1 then
          match recordOfJsonObj ed with
          | some r => some ⟨cat, conf, reas, r⟩
          | none => none
        else none
      | none => none
    | _, _, _, _ => none
  | _ => none

/-- extractJson's brace fallback, the regex `/\{[\s\S]*\}/`: from the first
opening brace through the last closing brace, whole input otherwise. -/
def extractJsonBrace (response : Str) : Str :=
  match findSubAux ['\x7b'] response with
  | some i =>
    match findSubAux ['\x7d'] response.reverse with
    | some jr =>
      let j := response.length - 1 - jr
      if i < j then slice response i (j + 1) else response
    | none => response
  | none => response

/-- extractJson from capture.ts. The fenced-block regex
`/(three backticks)(?:json)?\s*\n?([\s\S]*?)\n?(three backticks)/` matches at
the first fence that has a later fence; its lazy capture runs to the next
fence, excluding one directly preceding newline; an empty capture is falsy, so
it falls through to the brace fallback, as does a fence-less response. -/
def extractJson (response : Str) : Str :=
  let fence := "```".toList
  match findSubAux fence response with
  | some p =>
    let r := (response.drop p).drop 3
    let r1 := if "json".toList.isPrefixOf r then r.drop 4 else r
    let r2 := r1.dropWhile isWsChar
    match findSubAux fence r2 with
    | some q =>
      let capLen := if 0 < q && r2.getD (q - 1) ' ' = '\n' then q - 1 else q
      let rawCap := r2.take capLen
      if rawCap.isEmpty then extractJsonBrace response else trim rawCap
    | none => extractJsonBrace response
  | none => extractJsonBrace response

/-- classify from capture.ts, as a function of the reasoning service's
response text. `jsonParse` stands for `JSON.parse`, returning `none` where it
would throw; schema validation is `validateClassification`. An in-band error
signal is a response starting with the error marker. -/
def classify (jsonParse : Str → Option Json) (thought response : Str) : Classification :=
  if "Error:".toList.isPrefixOf response then fallbackClassification thought
  else
    match jsonParse (extractJson response) with
    | some j =>
      match validateClassification j with
      | some c => c
      | none => fallbackClassification thought
    | none => fallbackClassification thought

/-- path.join on already clean segments. -/
def joinPath (a b : Str) : Str := a ++ '/' :: b

/-- Lower-case letters and digits, the characters `[^a-z0-9]+` keeps. -/
def isLowerAlnum (c : Char) : Bool := (97 ≤ c.toNat && c.toNat ≤ 122) || c.isDigit

/-- Collapse each maximal run of excluded characters into a single hyphen
(the `replace(/[^a-z0-9]+/g, "-")` step of generateFilename). -/
def collapseRuns : Str → Str
  | [] => []
  | c :: rest =>
    if isLowerAlnum c then c :: collapseRuns rest
    else '-' :: collapseRuns (rest.dropWhile (fun x => !isLowerAlnum x))
termination_by s => s.length
decreasing_by
  · simp only [List.length_cons]
    exact Nat.lt_succ_of_le (Nat.le_refl _)
  · simp only [List.length_cons]
    exact Nat.lt_succ_of_le (List.Sublist.length_le (List.dropWhile_sublist _))

/-- The name-sanitizing step of generateFilename in capture.ts. -/
def sanitizeName (name : Str) : Str :=
  let collapsed := collapseRuns (name.map Char.toLower)
  let stripped := ((collapsed.dropWhile (· = '-')).reverse.dropWhile (· = '-')).reverse
  stripped.take 40

/-- generateFilename from capture.ts, with the two timestamp fragments of
`new Date()` passed in. -/
def generateFilename (c : Classification) (datePart timePart : Str) : Str :=
  let name := match lookupKey c.extracted_data "name".toList with
    | some v => jsValToStr v
    | none => "capture".toList
  sanitizeName name ++ '-' :: datePart ++ '-' :: timePart ++ ".md".toList

/-- flattenExtractedData from capture.ts: keeps arrays and all non-null,
non-undefined values — on the embedded value model (which has no null) it
keeps every entry. -/
def flattenExtractedData (data : Record) : Record := data

/-- One optional body section of processCapture: present when the extracted
field is truthy. -/
def sectionFor (data : Record) (key title : Str) : List Str :=
  match lookupKey data key with
  | some v =>
    if jsTruthy v then ["## ".toList ++ title ++ "\n\n".toList ++ jsValToStr v] else []
  | none => []

/-- The outward-facing result of processCapture. -/
structure CaptureResult where
  filePath : Str
  category : Category
  confidence : Dec
  needsReview : Bool
  filename : Str
deriving DecidableEq

/-- Everything processCapture computes and writes. -/
structure ProcessOutcome where
  targetDir : Str
  filePath : Str
  metadata : Record
  content : Str
  fileContent : Str
  result : CaptureResult
deriving DecidableEq

/-- processCapture from capture.ts, as a pure function of the classification,
the configuration (data directory and confidence threshold), and the
timestamp strings derived from `new Date()`. The comparison
`classification.confidence < this.confidenceThreshold` is the comparison of
the denoted numbers. -/
def processCapture (dataDir : Str) (confidenceThreshold : Dec) (thought : Str)
    (c : Classification) (createdTs datePart timePart : Str) : ProcessOutcome :=
  let needsReview := decide (c.confidence.toRat < confidenceThreshold.toRat)
  let targetDir :=
    if needsReview then joinPath dataDir "_needs_review".toList
    else joinPath dataDir (CATEGORY_DIRS c.category)
  let filename := generateFilename c datePart timePart
  let filePath := joinPath targetDir filename
  let metadata := (flattenExtractedData c.extracted_data).foldl
    (fun m kv => upsert m kv.1 kv.2)
    [("category".toList, .str (categoryName c.category)),
     ("confidence".toList, .num c.confidence),
     ("created".toList, .str createdTs)]
  let bodyParts :=
    sectionFor c.extracted_data "context".toList "Context".toList
    ++ sectionFor c.extracted_data "follow_ups".toList "Follow Ups".toList
    ++ sectionFor c.extracted_data "next_action".toList "Next Action".toList
    ++ sectionFor c.extracted_data "one_liner".toList "One Liner".toList
    ++ sectionFor c.extracted_data "notes".toList "Notes".toList
    ++ ["## Original Thought\n\n".toList ++ thought,
        "## Classification Reasoning\n\n".toList ++ c.reasoning]
  let content := joinSep "\n\n".toList bodyParts
  ⟨targetDir, filePath, metadata, content, stringifyFrontmatter metadata content,
    ⟨filePath, c.category, c.confidence, needsReview, filename⟩⟩

/-- A document as produced by the scanner (src/types/secondbrain.ts);
instants are epoch milliseconds. -/
structure ScannedDocument where
  filename : Str
  filepath : Str
  category : Str
  content : Str
  frontmatter : Record
  created : Int
  modified : Int
  title : Str
  status : Option Str
  confidence : Rat
deriving DecidableEq

/-- The scanner's urgency keywords (scanner.ts isActionable). -/
def urgencyKeywordsScanner : List Str :=
  ["urgent".toList, "asap".toList, "deadline".toList, "overdue".toList,
   "today".toList, "tomorrow".toList]

/-- The synthesizer's urgency keywords (synthesis.ts prioritizeActions). -/
def urgencyKeywordsSynthesis : List Str :=
  ["urgent".toList, "asap".toList, "deadline".toList, "overdue".toList]

/-- No word character on the left of a candidate match (the `\b` on the left;
`none` is the start of the string). -/
def boundaryBefore : Option Char → Bool
  | none => true
  | some c => !isWordChar c

/-- No word character on the right of a candidate match (the `\b` on the
right). -/
def boundaryAfter (s : Str) : Bool :=
  match s with
  | [] => true
  | c :: _ => !isWordChar c

/-- Scan for a word-boundary-delimited occurrence of one of the keywords,
carrying the previous character. -/
def wordScan (kws : List Str) (prev : Option Char) : Str → Bool
  | [] => false
  | c :: rest =>
    (boundaryBefore prev
        && kws.any (fun kw => kw.isPrefixOf (c :: rest) && boundaryAfter ((c :: rest).drop kw.length)))
      || wordScan kws (some c) rest

/-- The test `/\b(kw1|...|kwN)\b/.test(s)` for keywords made of word
characters. -/
def hasWordMatch (kws : List Str) (s : Str) : Bool := wordScan kws none s

/-- isActionable from scanner.ts: the switch on the document's category
string. -/
def isActionable (doc : ScannedDocument) : Bool :=
  if doc.category = "projects".toList then
    (lookupKey doc.frontmatter "status".toList == some (.str "active".toList))
      || (lookupKey doc.frontmatter "status".toList == some (.str "todo".toList))
  else if doc.category = "people".toList then
    fmTruthy doc.frontmatter "follow_ups".toList
  else if doc.category = "admin".toList then
    fmTruthy doc.frontmatter "due_date".toList
      || hasWordMatch urgencyKeywordsScanner (doc.content.map Char.toLower)
  else false

/-- getActionableItems from scanner.ts, as a function of the scanned
documents. -/
def getActionableItems (docs : List ScannedDocument) : List ScannedDocument :=
  docs.filter isActionable

/-- CaptureStats from src/types/secondbrain.ts. -/
structure CaptureStats where
  total : Nat
  week : Nat
  today : Nat
  byCategory : List (Str × Nat)
  avgConfidence : Rat
  needsReview : Nat
  actionable : Nat
deriving DecidableEq

/-- `byCategory[cat] = (byCategory[cat] ?? 0) + 1`. -/
def bumpCategory (bc : List (Str × Nat)) (cat : Str) : List (Str × Nat) :=
  match bc with
  | [] => [(cat, 1)]
  | (k, n) :: t => if k = cat then (k, n + 1) :: t else (k, n) :: bumpCategory t cat

/-- Milliseconds per day. -/
def msPerDay : Int := 86400000

/-- The loop state of getStats. -/
structure StatsAcc where
  byCategory : List (Str × Nat)
  totalConfidence : Rat
  todayCount : Nat
  weekCount : Nat

/-- getStats from synthesis.ts, as a function of the scanned documents, the
needs-review documents, and the instants derived from `new Date()` (`now` and
the start of the local day). -/
def getStats (now todayStart : Int) (allDocs reviewDocs : List ScannedDocument) : CaptureStats :=
  if allDocs.isEmpty then
    ⟨0, 0, 0, [], 0, reviewDocs.length, 0⟩
  else
    let weekAgo := now - 7 * msPerDay
    let st := allDocs.foldl
      (fun acc doc =>
        ⟨bumpCategory acc.byCategory doc.category,
          acc.totalConfidence + doc.confidence,
          acc.todayCount + (if todayStart ≤ doc.created then 1 else 0),
          acc.weekCount + (if weekAgo ≤ doc.created then 1 else 0)⟩)
      (⟨[], 0, 0, 0⟩ : StatsAcc)
    ⟨allDocs.length, st.weekCount, st.todayCount, st.byCategory,
      st.totalConfidence / (allDocs.length : Rat), reviewDocs.length, 0⟩

/-- The score prioritizeActions assigns, with `todayStart` the start of the
local day. -/
def scoreDoc (todayStart : Int) (doc : ScannedDocument) : Int :=
  let yesterdayStart := todayStart - msPerDay
  (if fmTruthy doc.frontmatter "due_date".toList then 100 else 0)
    + (if todayStart ≤ doc.created then 50
       else if yesterdayStart ≤ doc.created then 30 else 0)
    + (if lookupKey doc.frontmatter "status".toList == some (.str "active".toList) then 20 else 0)
    + (if hasWordMatch urgencyKeywordsSynthesis (doc.content.map Char.toLower) then 40 else 0)

/-- Stable descending insertion by score; an element goes before the first
element of no greater score, so earlier input stays first on ties — the
unique behavior of the (specified-stable) JS sort under the comparator
`(a, b) => b.score - a.score`. -/
def insertDesc (x : Int × ScannedDocument) :
    List (Int × ScannedDocument) → List (Int × ScannedDocument)
  | [] => [x]
  | y :: t => if y.1 ≤ x.1 then x :: y :: t else y :: insertDesc x t

/-- Stable sort by descending score. -/
def sortDesc : List (Int × ScannedDocument) → List (Int × ScannedDocument)
  | [] => []
  | x :: t => insertDesc x (sortDesc t)

/-- prioritizeActions from synthesis.ts. -/
def prioritizeActions (todayStart : Int) (items : List ScannedDocument) :
    List ScannedDocument :=
  (sortDesc (items.map (fun i => (scoreDoc todayStart i, i)))).map Prod.snd

/-- getDailyActions from synthesis.ts, as a function of the actionable
items. -/
def getDailyActions (todayStart : Int) (actionable : List ScannedDocument)
    (limit : Option Nat) : List ScannedDocument :=
  if actionable.isEmpty then []
  else (prioritizeActions todayStart actionable).take (limit.getD 3)

/-- JS `s.replace(pat, repl)` with a plain string pattern: first occurrence
only (no substitution patterns occur in the replacements used here). -/
def replaceFirst (s pat repl : Str) : Str :=
  match findSubAux pat s with
  | some i => s.take i ++ repl ++ s.drop (i + pat.length)
  | none => s

/-- One action line block of buildDailyPrompt. -/
def renderAction (doc : ScannedDocument) : Str :=
  let fm := doc.frontmatter
  let opt := fun (key label : Str) =>
    match lookupKey fm key with
    | some v => if jsTruthy v then [label ++ jsValToStr v] else []
    | none => []
  joinNl (("- **".toList ++ doc.title ++ "** [".toList ++ doc.category ++ "]".toList)
    :: (opt "status".toList "  Status: ".toList
      ++ opt "next_action".toList "  Next: ".toList
      ++ opt "follow_ups".toList "  Follow-up: ".toList
      ++ opt "due_date".toList "  Due: ".toList))

/-- buildDailyPrompt from digest.ts, with the template text and current date
string passed in. -/
def buildDailyPrompt (template dateStr : Str) (actions : List ScannedDocument)
    (limit : Nat) : Str :=
  let itemsText := joinSep "\n\n".toList (actions.map renderAction)
  replaceFirst
    (replaceFirst
      (replaceFirst template "\x7b\x7bLIMIT\x7d\x7d".toList (Nat.repr limit).toList)
      "\x7b\x7bDATE\x7d\x7d".toList dateStr)
    "\x7b\x7bITEMS\x7d\x7d".toList itemsText

/-- The fixed message of the empty daily digest. -/
def allCaughtUpMsg : Str :=
  "No actionable items found for today. You're all caught up!".toList

/-- The fixed message when digest narration fails in-band. -/
def digestFailMsg : Str :=
  "Failed to generate daily digest. Please try again later.".toList

/-- What generateDailyDigest produces: the returned text and the prompts
actually sent to the reasoning service. -/
structure DigestOutcome where
  output : Str
  prompts : List Str
deriving DecidableEq

/-- generateDailyDigest from digest.ts: the configured limit (`?? 3`), the
daily actions, the empty-case short circuit, and the in-band error check on
the narration call. `narrate` is the reasoning service, quantified over in
the theorems. -/
def generateDailyDigest (limitCfg : Option Nat) (template dateStr : Str)
    (narrate : Str → Str) (todayStart : Int)
    (actionable : List ScannedDocument) : DigestOutcome :=
  let limit := limitCfg.getD 3
  let actions := getDailyActions todayStart actionable (some limit)
  if actions.isEmpty then ⟨allCaughtUpMsg, []⟩
  else
    let prompt := buildDailyPrompt template dateStr actions limit
    let response := narrate prompt
    if "Error:".toList.isPrefixOf response then ⟨digestFailMsg, [prompt]⟩
    else ⟨response, [prompt]⟩

/-- msUntilTime from the scheduler service: the current instant is split into
a local day index and milliseconds within that day, and the schedule target
`hh:mm` is placed on the same local day, pushed to the next day when not
strictly in the future. Local time is modelled with a fixed UTC offset. -/
def msUntilTime (dayIdx : Int) (msOfDay : Nat) (h m : Nat) : Int :=
  let nowAbs := dayIdx * msPerDay + (msOfDay : Int)
  let target0 := dayIdx * msPerDay + ((h : Int) * 3600000 + (m : Int) * 60000)
  let target := if target0 ≤ nowAbs then target0 + msPerDay else target0
  target - nowAbs

/-- The filesystem as the fixer sees it: absolute path to file contents. -/
abbrev FileSystem := List (Str × Str)

/-- File lookup. -/
def fsLookup (fs : FileSystem) (path : Str) : Option Str :=
  match fs with
  | [] => none
  | (p, c) :: t => if p = path then some c else fsLookup t path

/-- `writeFile`: overwrite or create. -/
def fsWrite (fs : FileSystem) (path contents : Str) : FileSystem :=
  match fs with
  | [] => [(path, contents)]
  | (p, c) :: t => if p = path then (p, contents) :: t else (p, c) :: fsWrite t path contents

/-- `unlink`. -/
def fsRemove (fs : FileSystem) (path : Str) : FileSystem :=
  fs.filter (fun e => !(e.1 == path))

/-- `appendFile`: creates the file when missing. -/
def fsAppend (fs : FileSystem) (path entry : Str) : FileSystem :=
  match fsLookup fs path with
  | some c => fsWrite fs path (c ++ entry)
  | none => fsWrite fs path entry

/-- The directories the fixer searches, in source order. -/
def fixerDirs : List Str :=
  ["People".toList, "Projects".toList, "Ideas".toList, "Admin".toList,
   "_needs_review".toList]

/-- findFileByName from fixer.ts: first category directory (then the
needs-review holding area) containing the file. -/
def findFileByName (fs : FileSystem) (dataDir filename : Str) : Option Str :=
  (fixerDirs.filterMap (fun d =>
    let p := joinPath (joinPath dataDir d) filename
    if (fsLookup fs p).isSome then some p else none)).head?

/-- FixResult from src/types/secondbrain.ts. -/
structure FixResult where
  success : Bool
  oldCategory : Str
  newCategory : Str
  filename : Str
  oldPath : Str
  newPath : Str
  message : Str
deriving DecidableEq

/-- The audit entry logFix appends. -/
def fixLogEntry (ts : Str) (userId : Option Str) (filename oldCat newCat : Str) : Str :=
  "\n---\n\n**Timestamp:** ".toList ++ ts
    ++ "\n**User:** ".toList ++ (userId.getD "unknown".toList)
    ++ "\n**Action:** Fix\n**File:** `".toList ++ filename
    ++ "`\n**Change:** ".toList ++ oldCat ++ " → ".toList ++ newCat ++ "\n".toList

/-- fixCapture from fixer.ts, over the filesystem model: category validation,
file search, rewrite of the category field, write to the new location, removal
of the old file when the path changed, and the audit append. In this pure
model the I/O of the happy path cannot throw, so the catch branch is
unreachable. -/
def fixCapture (fs : FileSystem) (dataDir nowTs : Str) (newCategory filename : Str)
    (userId : Option Str) : FixResult × FileSystem :=
  if !(VALID_CATEGORIES.contains newCategory) then
    (⟨false, [], newCategory, filename, [], [],
      "Invalid category: \"".toList ++ newCategory ++ "\". Valid: ".toList
        ++ joinSep ", ".toList VALID_CATEGORIES⟩, fs)
  else
    match categoryOfStr newCategory, findFileByName fs dataDir filename with
    | none, _ =>
      (⟨false, [], newCategory, filename, [], [],
        "Invalid category: \"".toList ++ newCategory ++ "\". Valid: ".toList
          ++ joinSep ", ".toList VALID_CATEGORIES⟩, fs)
    | some _, none =>
      (⟨false, [], newCategory, filename, [], [],
        "File \"".toList ++ filename ++ "\" not found in any category directory.".toList⟩, fs)
    | some category, some filePath =>
      match fsLookup fs filePath with
      | none =>
        (⟨false, [], newCategory, filename, filePath, [],
          "Error fixing capture: file unreadable".toList⟩, fs)
      | some raw =>
        let parsed := parseFrontmatter raw
        let oldCategory := match lookupKey parsed.metadata "category".toList with
          | some v => jsValToStr v
          | none => "admin".toList
        let newContent := stringifyFrontmatter
          (upsert parsed.metadata "category".toList (.str newCategory)) parsed.content
        let newPath := joinPath (joinPath dataDir (CATEGORY_DIRS category)) filename
        let fs1 := fsWrite fs newPath newContent
        let fs2 := if filePath = newPath then fs1 else fsRemove fs1 filePath
        let fs3 := fsAppend fs2 (joinPath dataDir "_inbox_log.md".toList)
          (fixLogEntry nowTs userId filename oldCategory newCategory)
        (⟨true, oldCategory, newCategory, filename, filePath, newPath,
          "Moved \"".toList ++ filename ++ "\" from ".toList ++ oldCategory
            ++ " to ".toList ++ newCategory ++ ".".toList⟩, fs3)

/-- No occurrence of the frontmatter delimiter begins anywhere in the string
(phrased over suffixes). -/
def NoTriple (s : Str) : Prop :=
  ∀ zs : Str, zs <:+ s → "---".toList.isPrefixOf zs = false

/-- Right-trim the final line of a block (what the block-level trim does to
the serialized lines). -/
def adjustLast : List Str → List Str
  | [] => []
  | [l] => [trimEnd l]
  | l :: m :: t => l :: adjustLast (m :: t)

/-- All lines a metadata map serializes to. -/
def entriesLines (md : Record) : List Str := (md.map entryLines).flatten

/-- A concrete scanned document: an active project (used to exhibit concrete
behavior of the statistics and actionability functions). -/
def sampleActiveProject : ScannedDocument :=
  ⟨"website-20260207-100000.md".toList, "/data/Projects/website-20260207-100000.md".toList,
    "projects".toList, "Ship the website".toList,
    [("category".toList, .str "projects".toList), ("status".toList, .str "active".toList)],
    0, 0, "Website".toList, some "active".toList, (8 : Rat) / 10⟩

/-- A concrete scanned document in the ideas category. -/
def sampleIdeaDoc : ScannedDocument :=
  ⟨"ai-tool-20260207-100000.md".toList, "/data/Ideas/ai-tool-20260207-100000.md".toList,
    "ideas".toList, "urgent deadline asap".toList,
    [("due_date".toList, .str "2026-02-08".toList)],
    0, 0, "AI Tool".toList, none, (9 : Rat) / 10⟩

/-- A confidence value of 0.6 (the default configured threshold). -/
def decPoint6 : Dec := ⟨false, [0], [6]⟩

/-- A confidence value of 0.59 (one step below the default threshold). -/
def decPoint59 : Dec := ⟨false, [0], [5, 9]⟩

/-- A concrete classification at confidence 0.6. -/
def sampleClassification : Classification :=
  ⟨.people, decPoint6, "mentions a person".toList,
    [("name".toList, .str "Sarah".toList)]⟩

/-- C2: in processCapture, needsReview holds exactly when the classification's
confidence is strictly below the configured threshold; at exact equality the
capture goes to the category directory, and strictly below it goes to the
needs-review holding area. -/
theorem capture_threshold_boundary (dataDir : Str) (thr : Dec) (thought : Str)
    (c : Classification) (ts dp tp : Str) :
    ((processCapture dataDir thr thought c ts dp tp).result.needsReview = true
      ↔ c.confidence.toRat < thr.toRat)
    ∧ (c.confidence.toRat = thr.toRat →
        (processCapture dataDir thr thought c ts dp tp).result.needsReview = false
        ∧ (processCapture dataDir thr thought c ts dp tp).targetDir
            = joinPath dataDir (CATEGORY_DIRS c.category))
    ∧ (c.confidence.toRat < thr.toRat →
        (processCapture dataDir thr thought c ts dp tp).result.needsReview = true
        ∧ (processCapture dataDir thr thought c ts dp tp).targetDir
            = joinPath dataDir "_needs_review".toList) := by
  refine ⟨by simp [processCapture], fun h => ?_, fun h => ?_⟩
  · have hnot : ¬ c.confidence.toRat < thr.toRat := by rw [h]; exact lt_irrefl _
    simp [processCapture, hnot]
  · simp [processCapture, h]

/-- C2 witness: with the default threshold 0.6, a confidence of exactly 0.6 is
not routed to needs-review, and a confidence of 0.59 is. -/
theorem capture_threshold_boundary_check :
    (processCapture "/data".toList decPoint6 "t".toList sampleClassification
        "ts".toList "d".toList "h".toList).targetDir
      = joinPath "/data".toList (CATEGORY_DIRS Category.people)
    ∧ (processCapture "/data".toList decPoint6 "t".toList
        { sampleClassification with confidence := decPoint59 }
        "ts".toList "d".toList "h".toList).result.needsReview = true :=
  ⟨((capture_threshold_boundary "/data".toList decPoint6 "t".toList sampleClassification
      "ts".toList "d".toList "h".toList).2.1 rfl).2,
   ((capture_threshold_boundary "/data".toList decPoint6 "t".toList
      { sampleClassification with confidence := decPoint59 }
      "ts".toList "d".toList "h".toList).2.2 (by decide)).1⟩

/-- C3 counterexample: at a concrete in-band error response, the fallback's
reasoning string is not the exact string "parse error" (it is the longer fixed
string), so the claim's field-by-field description fails as stated. -/
theorem classify_fallback_reasoning_counterexample :
    (classify (fun _ => none) "x".toList "Error: boom".toList).reasoning
      ≠ "parse error".toList := by decide

/-- C3 (amended): an in-band error signal, a JSON parse failure, or a schema
validation failure all make classify return the one fixed fallback
classification — category admin, confidence 0, the fixed reasoning string
"parse error — fallback classification", extracted name "unknown", and the
original thought preserved under the notes key — regardless of the response
content, and classify is total. -/
theorem classify_fallback_determinism (jsonParse : Str → Option Json)
    (thought response : Str)
    (h : "Error:".toList.isPrefixOf response = true
      ∨ jsonParse (extractJson response) = none
      ∨ ∃ j, jsonParse (extractJson response) = some j ∧ validateClassification j = none) :
    classify jsonParse thought response = fallbackClassification thought
    ∧ (fallbackClassification thought).category = Category.admin
    ∧ (fallbackClassification thought).confidence = Dec.zero
    ∧ (fallbackClassification thought).reasoning
        = "parse error — fallback classification".toList
    ∧ lookupKey (fallbackClassification thought).extracted_data "name".toList
        = some (.str "unknown".toList)
    ∧ lookupKey (fallbackClassification thought).extracted_data "notes".toList
        = some (.str thought) := by
  refine ⟨?_, rfl, rfl, rfl, rfl, rfl⟩
  by_cases hp : "Error:".toList.isPrefixOf response = true
  · unfold classify
    rw [if_pos hp]
  · unfold classify
    rw [if_neg hp]
    rcases h with h | h | ⟨j, hj, hv⟩
    · exact absurd h hp
    · rw [h]
    · rw [hj]
      show (match validateClassification j with
        | some c => c
        | none => fallbackClassification thought) = fallbackClassification thought
      rw [hv]

/-- C3 witness: a concrete unparseable response produces the fallback. -/
theorem classify_fallback_determinism_check :
    classify (fun _ => none) "pay rent".toList "not json".toList
      = fallbackClassification "pay rent".toList :=
  (classify_fallback_determinism (fun _ => none) "pay rent".toList "not json".toList
    (Or.inr (Or.inl rfl))).1

/-- C4: getStats returns the `actionable` field as the hardcoded constant 0 on
every input, even though a store can hold actionable documents — exhibited on
a store holding exactly one actionable document (an active project), where the
actionable count is 1 but getStats reports 0. -/
theorem getStats_actionable_hardcoded_zero :
    (∀ now todayStart allDocs reviewDocs,
      (getStats now todayStart allDocs reviewDocs).actionable = 0)
    ∧ isActionable sampleActiveProject = true
    ∧ (getActionableItems [sampleActiveProject]).length = 1
    ∧ (getStats 0 0 [sampleActiveProject] []).actionable
        ≠ (getActionableItems [sampleActiveProject]).length := by
  refine ⟨fun now todayStart allDocs reviewDocs => ?_, by decide, by decide, by decide⟩
  unfold getStats
  split <;> rfl

/-- C6: getActionableItems keeps exactly the scanned documents satisfying the
category rules — projects with status "active" or "todo", people with a truthy
follow-up field, admin with a truthy due-date field or an urgency keyword in
the lowercased body — and never a document of the ideas category. -/
theorem actionable_rules (docs : List ScannedDocument) (d : ScannedDocument) :
    (d ∈ getActionableItems docs ↔ d ∈ docs ∧ isActionable d = true)
    ∧ (isActionable d = true ↔
        (d.category = "projects".toList
          ∧ (lookupKey d.frontmatter "status".toList = some (.str "active".toList)
            ∨ lookupKey d.frontmatter "status".toList = some (.str "todo".toList)))
        ∨ (d.category = "people".toList
          ∧ fmTruthy d.frontmatter "follow_ups".toList = true)
        ∨ (d.category = "admin".toList
          ∧ (fmTruthy d.frontmatter "due_date".toList = true
            ∨ hasWordMatch urgencyKeywordsScanner (d.content.map Char.toLower) = true)))
    ∧ (d.category = "ideas".toList → d ∉ getActionableItems docs) := by
  have hmem : d ∈ getActionableItems docs ↔ d ∈ docs ∧ isActionable d = true := by
    simp [getActionableItems]
  have hrule : isActionable d = true ↔
      (d.category = "projects".toList
        ∧ (lookupKey d.frontmatter "status".toList = some (.str "active".toList)
          ∨ lookupKey d.frontmatter "status".toList = some (.str "todo".toList)))
      ∨ (d.category = "people".toList
        ∧ fmTruthy d.frontmatter "follow_ups".toList = true)
      ∨ (d.category = "admin".toList
        ∧ (fmTruthy d.frontmatter "due_date".toList = true
          ∨ hasWordMatch urgencyKeywordsScanner (d.content.map Char.toLower) = true)) := by
    unfold isActionable
    by_cases h1 : d.category = "projects".toList
    · rw [if_pos h1]
      simp only [Bool.or_eq_true, beq_iff_eq]
      constructor
      · intro hb
        exact Or.inl ⟨h1, hb⟩
      · rintro (⟨_, hb⟩ | ⟨hc, _⟩ | ⟨hc, _⟩)
        · exact hb
        · exact absurd (h1.symm.trans hc) (by decide)
        · exact absurd (h1.symm.trans hc) (by decide)
    · by_cases h2 : d.category = "people".toList
      · rw [if_neg h1, if_pos h2]
        constructor
        · intro hb
          exact Or.inr (Or.inl ⟨h2, hb⟩)
        · rintro (⟨hc, _⟩ | ⟨_, hb⟩ | ⟨hc, _⟩)
          · exact absurd (h2.symm.trans hc) (by decide)
          · exact hb
          · exact absurd (h2.symm.trans hc) (by decide)
      · by_cases h3 : d.category = "admin".toList
        · rw [if_neg h1, if_neg h2, if_pos h3]
          simp only [Bool.or_eq_true]
          constructor
          · intro hb
            exact Or.inr (Or.inr ⟨h3, hb⟩)
          · rintro (⟨hc, _⟩ | ⟨hc, _⟩ | ⟨_, hb⟩)
            · exact absurd (h3.symm.trans hc) (by decide)
            · exact absurd (h3.symm.trans hc) (by decide)
            · exact hb
        · rw [if_neg h1, if_neg h2, if_neg h3]
          constructor
          · intro hb
            exact absurd hb (by simp)
          · rintro (⟨hc, _⟩ | ⟨hc, _⟩ | ⟨hc, _⟩)
            exacts [absurd hc h1, absurd hc h2, absurd hc h3]
  refine ⟨hmem, hrule, fun hideas hin => ?_⟩
  have := (hmem.mp hin).2
  rw [hrule] at this
  rcases this with ⟨h, _⟩ | ⟨h, _⟩ | ⟨h, _⟩ <;> rw [hideas] at h <;> exact absurd h (by decide)

/-- C6 witness: a concrete active project is kept and a concrete ideas
document is excluded even with a due date and urgency keywords. -/
theorem actionable_rules_check :
    sampleActiveProject ∈ getActionableItems [sampleActiveProject, sampleIdeaDoc]
    ∧ sampleIdeaDoc ∉ getActionableItems [sampleActiveProject, sampleIdeaDoc] :=
  ⟨(actionable_rules [sampleActiveProject, sampleIdeaDoc] sampleActiveProject).1.mpr
      ⟨List.Mem.head _, by decide⟩,
   (actionable_rules [sampleActiveProject, sampleIdeaDoc] sampleIdeaDoc).2.2 rfl⟩

/-- C7: the daily delay computation expires at today's occurrence of the
target time when that instant is strictly in the future and at tomorrow's
occurrence otherwise, and is always strictly positive. -/
theorem scheduler_daily_next_occurrence (dayIdx : Int) (msOfDay h m : Nat)
    (hms : msOfDay < 86400000) (hh : h ≤ 23) (hm : m ≤ 59) :
    (dayIdx * msPerDay + (msOfDay : Int)
        < dayIdx * msPerDay + ((h : Int) * 3600000 + (m : Int) * 60000) →
      dayIdx * msPerDay + (msOfDay : Int) + msUntilTime dayIdx msOfDay h m
        = dayIdx * msPerDay + ((h : Int) * 3600000 + (m : Int) * 60000))
    ∧ (dayIdx * msPerDay + ((h : Int) * 3600000 + (m : Int) * 60000)
        ≤ dayIdx * msPerDay + (msOfDay : Int) →
      dayIdx * msPerDay + (msOfDay : Int) + msUntilTime dayIdx msOfDay h m
        = dayIdx * msPerDay + ((h : Int) * 3600000 + (m : Int) * 60000) + msPerDay)
    ∧ 0 < msUntilTime dayIdx msOfDay h m := by
  simp only [msUntilTime, msPerDay]
  split_ifs with hle <;> exact ⟨fun h1 => by omega, fun h2 => by omega, by omega⟩

/-- C7 witness: at 01:00 local with target 07:30 the delay reaches today's
07:30; starting at exactly 07:30 it reaches tomorrow's 07:30. -/
theorem scheduler_daily_next_occurrence_check :
    (20000 : Int) * msPerDay + ((3600000 : Nat) : Int) + msUntilTime 20000 3600000 7 30
      = 20000 * msPerDay + (((7 : Nat) : Int) * 3600000 + ((30 : Nat) : Int) * 60000)
    ∧ (20000 : Int) * msPerDay + ((27000000 : Nat) : Int) + msUntilTime 20000 27000000 7 30
      = 20000 * msPerDay + (((7 : Nat) : Int) * 3600000 + ((30 : Nat) : Int) * 60000)
        + msPerDay :=
  ⟨(scheduler_daily_next_occurrence 20000 3600000 7 30
      (by decide) (by decide) (by decide)).1 (by decide),
   (scheduler_daily_next_occurrence 20000 27000000 7 30
      (by decide) (by decide) (by decide)).2.1 (by decide)⟩

/-- C8: when there are zero actionable items the daily digest is the fixed
"all caught up" message and no prompt is sent to the reasoning service,
whatever the reasoning service would reply. -/
theorem daily_digest_short_circuit (limitCfg : Option Nat) (template dateStr : Str)
    (narrate : Str → Str) (todayStart : Int)
    (actionable : List ScannedDocument) (h : actionable = []) :
    generateDailyDigest limitCfg template dateStr narrate todayStart actionable
      = ⟨allCaughtUpMsg, []⟩ := by
  subst h
  simp [generateDailyDigest, getDailyActions]

/-- C8 witness: the empty store yields the fixed message and an empty prompt
list for a concrete reasoning service. -/
theorem daily_digest_short_circuit_check :
    generateDailyDigest none "tpl".toList "2026-10-11".toList
        (fun _ => "Error: down".toList) 0 [] = ⟨allCaughtUpMsg, []⟩ :=
  daily_digest_short_circuit none "tpl".toList "2026-10-11".toList
    (fun _ => "Error: down".toList) 0 [] rfl

/-- C9: for a category outside the closed set, fixCapture returns a failure
result whose message names the valid categories, and the filesystem — files
and audit log alike — is returned unchanged. -/
theorem fixer_invalid_category (fs : FileSystem) (dataDir nowTs newCategory filename : Str)
    (userId : Option Str) (h : newCategory ∉ VALID_CATEGORIES) :
    fixCapture fs dataDir nowTs newCategory filename userId
      = (⟨false, [], newCategory, filename, [], [],
          "Invalid category: \"".toList ++ newCategory
            ++ "\". Valid: people, projects, ideas, admin".toList⟩, fs) := by
  have hc : VALID_CATEGORIES.contains newCategory = false := by
    rw [List.contains_eq_any_beq]
    simp only [List.any_eq_false, beq_iff_eq]
    intro x hx hxe
    exact h (hxe ▸ hx)
  have hmsg : ("\". Valid: ".toList ++ joinSep ", ".toList VALID_CATEGORIES : Str)
      = "\". Valid: people, projects, ideas, admin".toList := by decide
  unfold fixCapture
  rw [hc]
  simp only [Bool.not_false, if_true]
  rw [List.append_assoc, List.append_assoc, hmsg, ← List.append_assoc]

/-- C9 witness: the concrete invalid category "foo" fails with the message
naming the valid set and leaves a one-file filesystem untouched. -/
theorem fixer_invalid_category_check :
    fixCapture [("/data/Admin/a.md".toList, "x".toList)] "/data".toList "ts".toList
        "foo".toList "a.md".toList none
      = (⟨false, [], "foo".toList, "a.md".toList, [], [],
          "Invalid category: \"".toList ++ "foo".toList
            ++ "\". Valid: people, projects, ideas, admin".toList⟩,
         [("/data/Admin/a.md".toList, "x".toList)]) :=
  fixer_invalid_category [("/data/Admin/a.md".toList, "x".toList)] "/data".toList
    "ts".toList "foo".toList "a.md".toList none (by decide)

/-- No occurrence of a pattern survives dropping a prefix. -/
theorem findSubAux_none_drop (pat : Str) (l : Str) (hl : findSubAux pat l = none)
    (k : Nat) : findSubAux pat (l.drop k) = none := by
  induction l generalizing k with
  | nil => simpa using hl
  | cons c t ih =>
    rw [findSubAux] at hl
    by_cases hp : pat.isPrefixOf (c :: t) = true
    · simp [hp] at hl
    · rw [Bool.not_eq_true] at hp
      simp only [hp, Bool.false_eq_true, if_false, Option.map_eq_none'] at hl
      cases k with
      | zero => rw [List.drop_zero, findSubAux, hp]; simp [hl]
      | succ n => exact ih hl n

/-- C10: an input whose trimmed form opens a frontmatter fence without any
second delimiter occurrence decodes to empty metadata with the input returned
untouched as the content; parseFrontmatter is total by construction. -/
theorem frontmatter_unterminated_identity (s : Str)
    (h1 : "---".toList.isPrefixOf (trimStart s) = true)
    (h2 : findSubFrom (trimStart s) "---".toList 1 = none) :
    parseFrontmatter s = ⟨[], s⟩ := by
  have h2a : findSubAux "---".toList ((trimStart s).drop 1) = none := by
    rw [findSubFrom, Option.map_eq_none'] at h2
    exact h2
  have h3 : findSubFrom (trimStart s) "---".toList 3 = none := by
    rw [findSubFrom, Option.map_eq_none']
    have hdrop : ((trimStart s).drop 1).drop 2 = (trimStart s).drop 3 := by
      rw [List.drop_drop]
    rw [← hdrop]
    exact findSubAux_none_drop _ _ h2a 2
  simp only [parseFrontmatter, h1, h3, Bool.not_true, Bool.false_eq_true, if_false]

/-- C10 witness: a concrete unterminated input is returned unchanged. -/
theorem frontmatter_unterminated_identity_check :
    parseFrontmatter "--- no closing fence here".toList
      = ⟨[], "--- no closing fence here".toList⟩ :=
  frontmatter_unterminated_identity "--- no closing fence here".toList
    (by decide) (by decide)

/-- The source's comparator sorts by descending score; stable insertion agrees
with Mathlib's ordered insertion for that relation. -/
theorem insertDesc_eq_orderedInsert (x : Int × ScannedDocument)
    (l : List (Int × ScannedDocument)) :
    insertDesc x l = List.orderedInsert (fun a b => b.1 ≤ a.1) x l := by
  induction l with
  | nil => rfl
  | cons y t ih =>
    rw [insertDesc, List.orderedInsert]
    by_cases h : y.1 ≤ x.1
    · rw [if_pos h, if_pos h]
    · rw [if_neg h, if_neg h, ih]

/-- The whole stable sort agrees with Mathlib's insertion sort. -/
theorem sortDesc_eq_insertionSort (l : List (Int × ScannedDocument)) :
    sortDesc l = List.insertionSort (fun a b => b.1 ≤ a.1) l := by
  induction l with
  | nil => rfl
  | cons x t ih => rw [sortDesc, List.insertionSort, ih, insertDesc_eq_orderedInsert]

/-- Inserting preserves the sublist of entries of each fixed score (stability
of one insertion step). -/
theorem insertDesc_filter_score (s : Int) (x : Int × ScannedDocument)
    (l : List (Int × ScannedDocument)) :
    (insertDesc x l).filter (fun y => y.1 == s) = (x :: l).filter (fun y => y.1 == s) := by
  induction l with
  | nil => rfl
  | cons y t ih =>
    rw [insertDesc]
    by_cases h : y.1 ≤ x.1
    · rw [if_pos h]
    · rw [if_neg h]
      have hlt : x.1 < y.1 := lt_of_not_le h
      by_cases hy : (y.1 == s) = true
      · have hx : (x.1 == s) = false := by
          rw [beq_iff_eq] at hy
          rw [beq_eq_false_iff_ne]
          omega
        simp only [List.filter_cons, hy, hx, if_true, if_false, Bool.false_eq_true, ih]
      · rw [Bool.not_eq_true] at hy
        simp only [List.filter_cons, hy, Bool.false_eq_true, if_false, ih]

/-- The sort preserves the sublist of entries of each fixed score (stability:
equal scores keep encounter order). -/
theorem sortDesc_filter_score (s : Int) (l : List (Int × ScannedDocument)) :
    (sortDesc l).filter (fun y => y.1 == s) = l.filter (fun y => y.1 == s) := by
  induction l with
  | nil => rfl
  | cons x t ih =>
    rw [sortDesc, insertDesc_filter_score]
    simp only [List.filter_cons, ih]

/-- On a two-element input with a strictly larger second score, the sort swaps
the pair. -/
theorem prioritize_pair (todayStart : Int) (a b : ScannedDocument)
    (h : scoreDoc todayStart a < scoreDoc todayStart b) :
    prioritizeActions todayStart [a, b] = [b, a] := by
  unfold prioritizeActions
  simp only [List.map_cons, List.map_nil, sortDesc, insertDesc]
  rw [if_neg (not_le.mpr h)]
  rfl

/-- C5: prioritizeActions scores each item (+100 truthy due date, +50 created
today else +30 created yesterday, +20 status "active", +40 urgency keyword)
and returns a permutation of its input sorted by non-increasing score in which
the items of each fixed score keep their input order; consequently, of two
otherwise-identical items only one of which has a due date, the due-date item
sorts first, and of two items differing only by creation date (today versus
two days ago), the more recent sorts first. -/
theorem prioritize_scoring_order :
    (∀ todayStart items,
      (prioritizeActions todayStart items).Perm items
      ∧ (prioritizeActions todayStart items).Pairwise
          (fun a b => scoreDoc todayStart b ≤ scoreDoc todayStart a)
      ∧ ∀ s : Int,
          (prioritizeActions todayStart items).filter (fun d => scoreDoc todayStart d == s)
            = items.filter (fun d => scoreDoc todayStart d == s))
    ∧ (∀ todayStart (a b : ScannedDocument),
        fmTruthy a.frontmatter "due_date".toList = false →
        fmTruthy b.frontmatter "due_date".toList = true →
        a.created = b.created →
        lookupKey a.frontmatter "status".toList = lookupKey b.frontmatter "status".toList →
        a.content = b.content →
        prioritizeActions todayStart [a, b] = [b, a])
    ∧ (∀ todayStart (a b : ScannedDocument),
        fmTruthy a.frontmatter "due_date".toList = fmTruthy b.frontmatter "due_date".toList →
        a.created < todayStart - msPerDay →
        todayStart ≤ b.created →
        lookupKey a.frontmatter "status".toList = lookupKey b.frontmatter "status".toList →
        a.content = b.content →
        prioritizeActions todayStart [a, b] = [b, a]) := by
  refine ⟨fun todayStart items => ?_, fun ts a b h1 h2 h3 h4 h5 => ?_,
    fun ts a b h1 h2 h3 h4 h5 => ?_⟩
  · have hsnd : ∀ l : List ScannedDocument,
        (l.map (fun i => (scoreDoc todayStart i, i))).map Prod.snd = l := by
      intro l
      induction l with
      | nil => rfl
      | cons a t ih => simp only [List.map_cons, ih]
    have hpairs : ∀ y ∈ sortDesc (items.map (fun i => (scoreDoc todayStart i, i))),
        y.1 = scoreDoc todayStart y.2 := by
      intro y hy
      rw [sortDesc_eq_insertionSort] at hy
      have := (List.perm_insertionSort (fun a b => b.1 ≤ a.1)
        (items.map (fun i => (scoreDoc todayStart i, i)))).mem_iff.mp hy
      rcases List.mem_map.mp this with ⟨i, _, rfl⟩
      rfl
    refine ⟨?_, ?_, ?_⟩
    · unfold prioritizeActions
      rw [sortDesc_eq_insertionSort]
      have hp := (List.perm_insertionSort (fun a b => b.1 ≤ a.1)
        (items.map (fun i => (scoreDoc todayStart i, i)))).map Prod.snd
      rw [hsnd] at hp
      exact hp
    · unfold prioritizeActions
      rw [List.pairwise_map]
      have hsorted : (sortDesc (items.map (fun i => (scoreDoc todayStart i, i)))).Pairwise
          (fun a b => b.1 ≤ a.1) := by
        rw [sortDesc_eq_insertionSort]
        haveI : IsTotal (Int × ScannedDocument) (fun a b => b.1 ≤ a.1) :=
          ⟨fun a b => le_total b.1 a.1⟩
        haveI : IsTrans (Int × ScannedDocument) (fun a b => b.1 ≤ a.1) :=
          ⟨fun a b c hab hbc => le_trans hbc hab⟩
        exact List.sorted_insertionSort _ _
      exact List.Pairwise.imp_of_mem
        (fun ha hb hr => by rw [hpairs _ ha, hpairs _ hb] at hr; exact hr) hsorted
    · intro s
      unfold prioritizeActions
      rw [List.filter_map]
      have hc1 : (sortDesc (items.map (fun i => (scoreDoc todayStart i, i)))).filter
            ((fun d => scoreDoc todayStart d == s) ∘ Prod.snd)
          = (sortDesc (items.map (fun i => (scoreDoc todayStart i, i)))).filter
            (fun y => y.1 == s) := by
        apply List.filter_congr
        intro y hy
        simp only [Function.comp_apply, hpairs y hy]
      rw [hc1, sortDesc_filter_score]
      have hc2 : (items.map (fun i => (scoreDoc todayStart i, i))).filter (fun y => y.1 == s)
          = (items.filter (fun d => scoreDoc todayStart d == s)).map
              (fun i => (scoreDoc todayStart i, i)) := by
        rw [List.filter_map]
        rfl
      rw [hc2]
      exact hsnd _
  · apply prioritize_pair
    simp only [scoreDoc, h1, h2, h3, h4, h5, Bool.false_eq_true, if_false, if_true]
    omega
  · apply prioritize_pair
    have hmdv : msPerDay = (86400000 : Int) := rfl
    have hna : ¬ ts ≤ a.created := by omega
    have hna2 : ¬ ts - msPerDay ≤ a.created := by omega
    simp only [scoreDoc, h1, h3, h4, h5, if_pos h3, if_neg hna, if_neg hna2]
    omega

/-- C5 witness: concrete instances of both ordering consequences and of the
characterization at a two-element input. -/
theorem prioritize_scoring_order_check :
    prioritizeActions 1000 [sampleActiveProject,
        { sampleActiveProject with
            frontmatter := ("due_date".toList, JsVal.str "soon".toList)
              :: sampleActiveProject.frontmatter }]
      = [{ sampleActiveProject with
            frontmatter := ("due_date".toList, JsVal.str "soon".toList)
              :: sampleActiveProject.frontmatter }, sampleActiveProject] :=
  (prioritize_scoring_order.2.1 1000 sampleActiveProject
    { sampleActiveProject with
        frontmatter := ("due_date".toList, JsVal.str "soon".toList)
          :: sampleActiveProject.frontmatter }
    (by decide) (by decide) rfl (by decide) rfl)

/-- takeWhile stops exactly at the first failing element after a satisfying
prefix. -/
theorem takeWhile_append_all {α : Type} {p : α → Bool} {A : List α} {b : α} (B : List α)
    (hA : ∀ a ∈ A, p a = true) (hb : p b = false) :
    (A ++ b :: B).takeWhile p = A := by
  induction A with
  | nil => simp [List.takeWhile_cons, hb]
  | cons a t ih =>
    rw [List.cons_append, List.takeWhile_cons, if_pos (hA a (List.mem_cons_self a t))]
    rw [ih (fun x hx => hA x (List.mem_cons_of_mem a hx))]

/-- dropWhile lands exactly on the first failing element after a satisfying
prefix. -/
theorem dropWhile_append_all {α : Type} {p : α → Bool} {A : List α} {b : α} (B : List α)
    (hA : ∀ a ∈ A, p a = true) (hb : p b = false) :
    (A ++ b :: B).dropWhile p = b :: B := by
  induction A with
  | nil => simp [List.dropWhile_cons, hb]
  | cons a t ih =>
    rw [List.cons_append, List.dropWhile_cons, if_pos (hA a (List.mem_cons_self a t))]
    exact ih (fun x hx => hA x (List.mem_cons_of_mem a hx))

/-- dropWhile does not cross an element that fails the predicate. -/
theorem dropWhile_append_of_exists {α : Type} {p : α → Bool} {X : List α} (Y : List α)
    (h : ∃ c ∈ X, p c = false) :
    (X ++ Y).dropWhile p = X.dropWhile p ++ Y := by
  induction X with
  | nil => rcases h with ⟨c, hc, _⟩; cases hc
  | cons x t ih =>
    rw [List.cons_append, List.dropWhile_cons, List.dropWhile_cons]
    by_cases hx : p x = true
    · rw [if_pos hx, if_pos hx]
      apply ih
      rcases h with ⟨c, hc, hcp⟩
      rcases List.mem_cons.mp hc with rfl | hct
      · rw [hx] at hcp; cases hcp
      · exact ⟨c, hct, hcp⟩
    · rw [Bool.not_eq_true] at hx
      rw [if_neg (by simp [hx]), if_neg (by simp [hx]), List.cons_append]

/-- Right-trimming does not cross a block holding a non-whitespace
character. -/
theorem trimEnd_append_of_mem {A B : Str} (h : ∃ c ∈ B, isWsChar c = false) :
    trimEnd (A ++ B) = A ++ trimEnd B := by
  have hrev : ∃ c ∈ B.reverse, isWsChar c = false := by
    rcases h with ⟨c, hc, hcp⟩
    exact ⟨c, List.mem_reverse.mpr hc, hcp⟩
  unfold trimEnd
  rw [List.reverse_append, dropWhile_append_of_exists _ hrev, List.reverse_append,
    List.reverse_reverse]

/-- A string ending in a non-whitespace character is already right-trimmed. -/
theorem trimEnd_eq_self_of_last {s : Str} {c : Char} (hl : s.getLast? = some c)
    (hc : isWsChar c = false) : trimEnd s = s := by
  unfold trimEnd
  rw [← List.head?_reverse] at hl
  cases hrev : s.reverse with
  | nil => rw [hrev] at hl; exact absurd hl (by simp)
  | cons x t =>
    rw [hrev, List.head?_cons] at hl
    have hx : x = c := Option.some.inj hl
    have hs : s = (x :: t).reverse := by rw [← hrev, List.reverse_reverse]
    rw [List.dropWhile_cons, if_neg (by rw [hx, hc]; exact Bool.false_ne_true)]
    exact hs.symm

/-- Right-trimming never lengthens a string. -/
theorem length_trimEnd_le (s : Str) : (trimEnd s).length ≤ s.length := by
  unfold trimEnd
  rw [List.length_reverse]
  calc (s.reverse.dropWhile isWsChar).length
      ≤ s.reverse.length := (List.dropWhile_suffix _).length_le
    _ = s.length := List.length_reverse s

/-- A trim-invariant string is invariant under each one-sided trim. -/
theorem trim_eq_self_split {s : Str} (h : trim s = s) :
    trimStart s = s ∧ trimEnd s = s := by
  have hsuf : trimStart s <:+ s := List.dropWhile_suffix _
  have hlen : s.length ≤ (trimStart s).length := by
    have h1 : (trim s).length ≤ (trimStart s).length := length_trimEnd_le _
    rw [h] at h1
    exact h1
  have hst : trimStart s = s :=
    hsuf.eq_of_length (le_antisymm hsuf.length_le hlen)
  refine ⟨hst, ?_⟩
  have := h
  unfold trim at this
  rw [hst] at this
  exact this

/-- joinNl distributes over append of nonempty line blocks. -/
theorem joinNl_append {A B : List Str} (hA : A ≠ []) (hB : B ≠ []) :
    joinNl (A ++ B) = joinNl A ++ '\n' :: joinNl B := by
  induction A with
  | nil => cases hA rfl
  | cons l t ih =>
    cases t with
    | nil =>
      cases B with
      | nil => cases hB rfl
      | cons b bt => rfl
    | cons m t2 =>
      rw [List.cons_append]
      have h1 : joinNl (l :: ((m :: t2) ++ B)) = l ++ '\n' :: joinNl ((m :: t2) ++ B) := rfl
      rw [h1, ih (by simp)]
      have h2 : joinNl (l :: m :: t2) = l ++ '\n' :: joinNl (m :: t2) := rfl
      rw [h2]
      simp [List.append_assoc]

/-- splitNl never returns the empty list. -/
theorem splitNl_ne_nil (s : Str) : splitNl s ≠ [] := by
  induction s with
  | nil => simp [splitNl]
  | cons c t ih =>
    rw [splitNl]
    by_cases h : c = '\n'
    · simp [h]
    · rw [if_neg h]
      rcases hs : splitNl t with _ | ⟨x, xs⟩
      · simp
      · simp

/-- Splitting a newline-free string is the identity block. -/
theorem splitNl_no_newline {l : Str} (h : '\n' ∉ l) : splitNl l = [l] := by
  induction l with
  | nil => rfl
  | cons c t ih =>
    rw [splitNl, if_neg (by intro hc; exact h (hc ▸ List.mem_cons_self c t))]
    rw [ih (fun hm => h (List.mem_cons_of_mem c hm))]

/-- Splitting after a leading newline-free line peels that line off. -/
theorem splitNl_append_cons {l : Str} (X : Str) (h : '\n' ∉ l) :
    splitNl (l ++ '\n' :: X) = l :: splitNl X := by
  induction l with
  | nil => rw [List.nil_append, splitNl, if_pos rfl]
  | cons c t ih =>
    rw [List.cons_append, splitNl,
      if_neg (by intro hc; exact h (hc ▸ List.mem_cons_self c t))]
    rw [ih (fun hm => h (List.mem_cons_of_mem c hm))]

/-- splitNl is a left inverse of joinNl on blocks of newline-free lines. -/
theorem splitNl_joinNl {ls : List Str} (h : ∀ l ∈ ls, '\n' ∉ l) (hne : ls ≠ []) :
    splitNl (joinNl ls) = ls := by
  induction ls with
  | nil => cases hne rfl
  | cons l t ih =>
    cases t with
    | nil => exact splitNl_no_newline (h l (List.mem_cons_self _ _))
    | cons m t2 =>
      rw [joinNl, splitNl_append_cons _ (h l (List.mem_cons_self _ _))]
      rw [ih (fun x hx => h x (List.mem_cons_of_mem l hx)) (by simp)]

/-- The first pattern occurrence in an appended string lies in the right part
when no occurrence can begin in the left part. -/
theorem findSubAux_append {pat : Str} {xs : Str} (ys : Str)
    (h : ∀ zs : Str, zs ≠ [] → zs <:+ xs → pat.isPrefixOf (zs ++ ys) = false) :
    findSubAux pat (xs ++ ys) = (findSubAux pat ys).map (· + xs.length) := by
  induction xs with
  | nil =>
    rw [List.nil_append]
    cases findSubAux pat ys <;> simp
  | cons c t ih =>
    have hcc : pat.isPrefixOf (c :: (t ++ ys)) = false := by
      have hh := h (c :: t) (by simp) (List.suffix_refl _)
      rw [List.cons_append] at hh
      exact hh
    rw [List.cons_append, findSubAux, if_neg (by rw [hcc]; exact Bool.false_ne_true)]
    rw [ih (fun zs hz hzs => h zs hz (hzs.trans (List.suffix_cons c t)))]
    cases findSubAux pat ys <;> simp [Nat.add_assoc, Nat.add_comm 1 t.length]

/-- A pattern-free search certifies that no suffix starts with the pattern. -/
theorem noTriple_of_findSubAux_none {s : Str}
    (h : findSubAux "---".toList s = none) : NoTriple s := by
  induction s with
  | nil =>
    intro zs hzs
    rw [List.suffix_nil.mp hzs]
    rfl
  | cons c t ih =>
    rw [findSubAux] at h
    by_cases hp : "---".toList.isPrefixOf (c :: t) = true
    · rw [if_pos hp] at h
      cases h
    · rw [Bool.not_eq_true] at hp
      rw [if_neg (by rw [hp]; exact Bool.false_ne_true), Option.map_eq_none'] at h
      intro zs hzs
      rcases List.suffix_cons_iff.mp hzs with rfl | hzs2
      · exact hp
      · exact ih h zs hzs2

/-- A string of word characters contains no delimiter start. -/
theorem noTriple_of_all_word {s : Str} (h : ∀ c ∈ s, isWordChar c = true) :
    NoTriple s := by
  intro zs hzs
  cases zs with
  | nil => rfl
  | cons z t =>
    have hz : isWordChar z = true := h z (hzs.subset (List.mem_cons_self z t))
    have hdash : ('-' == z) = false := by
      rw [beq_eq_false_iff_ne]
      intro hzd
      rw [← hzd] at hz
      exact absurd hz (by decide)
    have hstep : ("---".toList).isPrefixOf (z :: t)
        = (('-' == z) && ("--".toList).isPrefixOf t) := rfl
    rw [hstep, hdash, Bool.false_and]

/-- The empty pattern prefixes everything. -/
theorem nil_isPrefixOf_true (w : Str) : ([] : Str).isPrefixOf w = true := by
  simp [List.isPrefixOf]

/-- A string without dashes contains no delimiter start. -/
theorem noTriple_of_no_dash {s : Str} (h : ∀ c ∈ s, ('-' == c) = false) :
    NoTriple s := by
  intro zs hzs
  cases zs with
  | nil => rfl
  | cons z t =>
    have hz := h z (hzs.subset (List.mem_cons_self z t))
    have hstep : ("---".toList).isPrefixOf (z :: t)
        = (('-' == z) && ("--".toList).isPrefixOf t) := rfl
    rw [hstep, hz, Bool.false_and]

/-- Every suffix of an appended list is a suffix of the right part or a
nonempty suffix of the left part glued to the whole right part. -/
theorem suffix_append_split {zs A B : Str} (h : zs <:+ A ++ B) :
    zs <:+ B ∨ ∃ s1 : Str, s1 ≠ [] ∧ s1 <:+ A ∧ zs = s1 ++ B := by
  induction A with
  | nil => left; simpa using h
  | cons a t ih =>
    rw [List.cons_append, List.suffix_cons_iff] at h
    rcases h with rfl | h
    · right
      exact ⟨a :: t, by simp, List.suffix_refl _, by simp⟩
    · rcases ih h with h | ⟨s1, h1, h2, h3⟩
      · left; exact h
      · right; exact ⟨s1, h1, h2.trans (List.suffix_cons a t), h3⟩

/-- Prepending a non-dash character preserves delimiter-freedom. -/
theorem noTriple_cons {c : Char} {X : Str} (hc : ('-' == c) = false)
    (hX : NoTriple X) : NoTriple (c :: X) := by
  intro zs hzs
  rcases List.suffix_cons_iff.mp hzs with rfl | hzs2
  · have hstep : ("---".toList).isPrefixOf (c :: X)
        = (('-' == c) && ("--".toList).isPrefixOf X) := rfl
    rw [hstep, hc, Bool.false_and]
  · exact hX zs hzs2

/-- The delimiter cannot appear across the boundary of two delimiter-free
blocks when the right block does not open with a dash. -/
theorem noTriple_append {A B : Str} (hA : NoTriple A) (hB : NoTriple B)
    (hhead : ∀ c, B.head? = some c → ('-' == c) = false) :
    NoTriple (A ++ B) := by
  intro zs hzs
  rcases suffix_append_split hzs with hzB | ⟨s1, h1, h2, rfl⟩
  · exact hB zs hzB
  · have htail2 : ("--".toList).isPrefixOf B = false := by
      cases B with
      | nil => rfl
      | cons b bs =>
        have hb := hhead b rfl
        have hstep : ("--".toList).isPrefixOf (b :: bs)
            = (('-' == b) && ("-".toList).isPrefixOf bs) := rfl
        rw [hstep, hb, Bool.false_and]
    have htail1 : ("-".toList).isPrefixOf B = false := by
      cases B with
      | nil => rfl
      | cons b bs =>
        have hb := hhead b rfl
        have hstep : ("-".toList).isPrefixOf (b :: bs)
            = (('-' == b) && ([] : Str).isPrefixOf bs) := rfl
        rw [hstep, hb, Bool.false_and]
    match s1, h1 with
    | [x], _ =>
      have hstep : ("---".toList).isPrefixOf ([x] ++ B)
          = (('-' == x) && ("--".toList).isPrefixOf B) := rfl
      rw [hstep, htail2, Bool.and_false]
    | [x, y], _ =>
      have hstep : ("---".toList).isPrefixOf ([x, y] ++ B)
          = (('-' == x) && (('-' == y) && ("-".toList).isPrefixOf B)) := rfl
      rw [hstep, htail1, Bool.and_false, Bool.and_false]
    | x :: y :: z :: w, _ =>
      have hfree : ("---".toList).isPrefixOf (x :: y :: z :: w) = false :=
        hA _ h2
      have hsame : ("---".toList).isPrefixOf (x :: y :: z :: (w ++ B))
          = ("---".toList).isPrefixOf (x :: y :: z :: w) := by
        have e1 : ("---".toList).isPrefixOf (x :: y :: z :: (w ++ B))
            = (('-' == x) && (('-' == y) && (('-' == z)
                && (([] : Str).isPrefixOf (w ++ B))))) := rfl
        have e2 : ("---".toList).isPrefixOf (x :: y :: z :: w)
            = (('-' == x) && (('-' == y) && (('-' == z)
                && (([] : Str).isPrefixOf w)))) := rfl
        rw [e1, e2, nil_isPrefixOf_true, nil_isPrefixOf_true]
      rw [List.cons_append, List.cons_append, List.cons_append, hsame, hfree]

/-- A character of a line is a character of the joined block. -/
theorem mem_joinNl {c : Char} {l : Str} {ls : List Str} (hl : l ∈ ls) (hc : c ∈ l) :
    c ∈ joinNl ls := by
  induction ls with
  | nil => cases hl
  | cons x t ih =>
    cases t with
    | nil =>
      rcases List.mem_cons.mp hl with rfl | h
      · exact hc
      · cases h
    | cons m t2 =>
      have hjoin : joinNl (x :: m :: t2) = x ++ '\n' :: joinNl (m :: t2) := rfl
      rw [hjoin]
      rcases List.mem_cons.mp hl with rfl | h
      · exact List.mem_append_left _ hc
      · exact List.mem_append_right _ (List.mem_cons_of_mem _ (ih h))

/-- Joining delimiter-free newline-free lines yields a delimiter-free
block. -/
theorem noTriple_joinNl {ls : List Str} (h : ∀ l ∈ ls, NoTriple l) :
    NoTriple (joinNl ls) := by
  induction ls with
  | nil => intro zs hzs; rw [List.suffix_nil.mp hzs]; rfl
  | cons l t ih =>
    cases t with
    | nil => exact h l (List.mem_cons_self _ _)
    | cons m t2 =>
      have hjoin : joinNl (l :: m :: t2) = l ++ '\n' :: joinNl (m :: t2) := rfl
      rw [hjoin]
      refine noTriple_append (h l (List.mem_cons_self _ _)) ?_ ?_
      · refine noTriple_cons (by decide) (ih ?_)
        intro x hx
        exact h x (List.mem_cons_of_mem l hx)
      · intro c hcc
        rw [List.head?_cons] at hcc
        rw [← Option.some.inj hcc]
        decide

/-- A nonempty suffix ends where the whole list ends. -/
theorem suffix_getLast? {zs xs : Str} (h : zs <:+ xs) (hne : zs ≠ []) :
    zs.getLast? = xs.getLast? := by
  rcases h with ⟨pre, rfl⟩
  rw [List.getLast?_append]
  cases hz : zs.getLast? with
  | none => exact absurd (List.getLast?_eq_none_iff.mp hz) hne
  | some a => rfl

/-- Rendering a digit yields a digit character. -/
theorem digitToChar_isDigit {d : Nat} (h : d < 10) : (digitToChar d).isDigit = true := by
  interval_cases d <;> decide

/-- Reading back a rendered digit. -/
theorem charToDigit_digitToChar {d : Nat} (h : d < 10) :
    charToDigit (digitToChar d) = d := by
  interval_cases d <;> decide

/-- Digit characters are not dashes. -/
theorem digitToChar_no_dash {d : Nat} (h : d < 10) : ('-' == digitToChar d) = false := by
  interval_cases d <;> decide

/-- Digit characters are not whitespace. -/
theorem digitToChar_not_ws {d : Nat} (h : d < 10) : isWsChar (digitToChar d) = false := by
  interval_cases d <;> decide

/-- takeWhile keeps an all-satisfying list whole. -/
theorem takeWhile_all {α : Type} {p : α → Bool} {l : List α} (h : ∀ a ∈ l, p a = true) :
    l.takeWhile p = l := by
  induction l with
  | nil => rfl
  | cons a t ih =>
    rw [List.takeWhile_cons, if_pos (h a (List.mem_cons_self a t)),
      ih (fun x hx => h x (List.mem_cons_of_mem a hx))]

/-- dropWhile consumes an all-satisfying list entirely. -/
theorem dropWhile_all {α : Type} {p : α → Bool} {l : List α} (h : ∀ a ∈ l, p a = true) :
    l.dropWhile p = [] := by
  induction l with
  | nil => rfl
  | cons a t ih =>
    rw [List.dropWhile_cons, if_pos (h a (List.mem_cons_self a t))]
    exact ih (fun x hx => h x (List.mem_cons_of_mem a hx))

/-- dropWhile keeps a list whose head fails the predicate. -/
theorem dropWhile_head_no {α : Type} {p : α → Bool} {l : List α}
    (h : ∀ c, l.head? = some c → p c = false) : l.dropWhile p = l := by
  cases l with
  | nil => rfl
  | cons a t =>
    rw [List.dropWhile_cons, if_neg (by rw [h a rfl]; exact Bool.false_ne_true)]

/-- A string with no whitespace anywhere is trim-invariant. -/
theorem trim_eq_self_of_no_ws {s : Str} (h : ∀ c ∈ s, isWsChar c = false) :
    trim s = s := by
  have h1 : trimStart s = s :=
    dropWhile_head_no (fun c hc => h c (by cases s with
      | nil => cases hc
      | cons a t => exact (Option.some.inj hc) ▸ List.mem_cons_self a t))
  unfold trim
  rw [h1]
  cases hs : s.getLast? with
  | none => rw [List.getLast?_eq_none_iff.mp hs]; rfl
  | some c =>
    have hmem : c ∈ s := by
      rw [← List.head?_reverse] at hs
      cases hrev : s.reverse with
      | nil => rw [hrev] at hs; exact absurd hs (by simp)
      | cons x t =>
        rw [hrev, List.head?_cons] at hs
        rw [← List.mem_reverse, hrev, Option.some.inj hs]
        exact List.mem_cons_self _ _
    exact trimEnd_eq_self_of_last hs (h c hmem)

/-- All characters of a rendered digit string are digits. -/
theorem digitsToChars_all_digit {ds : List Nat} (h : digitsOk ds = true) :
    ∀ c ∈ digitsToChars ds, c.isDigit = true := by
  intro c hc
  rcases List.mem_map.mp hc with ⟨d, hd, rfl⟩
  exact digitToChar_isDigit (by
    have := List.all_eq_true.mp h d hd
    exact of_decide_eq_true this)

/-- Reading back a rendered digit string. -/
theorem map_charToDigit_digitsToChars {ds : List Nat} (h : digitsOk ds = true) :
    (digitsToChars ds).map charToDigit = ds := by
  induction ds with
  | nil => rfl
  | cons d t ih =>
    have hstep : digitsOk (d :: t) = ((decide (d < 10)) && digitsOk t) := rfl
    rw [hstep, Bool.and_eq_true] at h
    have hd : d < 10 := of_decide_eq_true h.1
    show charToDigit (digitToChar d) :: (digitsToChars t).map charToDigit = d :: t
    rw [charToDigit_digitToChar hd, ih h.2]

/-- Leading-zero stripping is the identity on canonical integer parts. -/
theorem stripLeadingZeros_canonical {ip : List Nat}
    (hlead : (match ip with | 0 :: rest => rest.isEmpty | _ => true) = true)
    (hne : ip ≠ []) :
    stripLeadingZeros ip = ip := by
  cases ip with
  | nil => cases hne rfl
  | cons d r =>
    by_cases hd : d = 0
    · subst hd
      have hr : r = [] := by
        cases r with
        | nil => rfl
        | cons a b =>
          exact absurd (show (false : Bool) = true from hlead) Bool.false_ne_true
      subst hr
      rfl
    · unfold stripLeadingZeros
      rw [List.dropWhile_cons, if_neg (by
        rw [decide_eq_false hd]
        exact Bool.false_ne_true)]

/-- Trailing-zero stripping is the identity on canonical fraction parts. -/
theorem stripTrailingZeros_canonical {fp : List Nat}
    (hlast : (match fp.getLast? with | some 0 => false | _ => true) = true) :
    stripTrailingZeros fp = fp := by
  unfold stripTrailingZeros
  cases hrev : fp.reverse with
  | nil =>
    have : fp = [] := by
      have := congrArg List.reverse hrev
      rwa [List.reverse_reverse] at this
    rw [this]
    rfl
  | cons x t =>
    have hx : fp.getLast? = some x := by
      rw [← List.head?_reverse, hrev, List.head?_cons]
    have hx0 : x ≠ 0 := by
      intro h0
      rw [h0] at hx
      rw [hx] at hlast
      exact absurd (show (false : Bool) = true from hlast) Bool.false_ne_true
    rw [List.dropWhile_cons, if_neg (by
      rw [decide_eq_false hx0]
      exact Bool.false_ne_true)]
    have hs : fp = (x :: t).reverse := by rw [← hrev, List.reverse_reverse]
    exact hs.symm

/-- Unpacking canonicity into its six components. -/
theorem canonical_parts {d : Dec} (h : d.Canonical = true) :
    d.ip ≠ [] ∧ digitsOk d.ip = true ∧ digitsOk d.fp = true
    ∧ (match d.ip with | 0 :: rest => rest.isEmpty | _ => true) = true
    ∧ (match d.fp.getLast? with | some 0 => false | _ => true) = true
    ∧ (d.neg = true → ((d.ip == [0]) && d.fp.isEmpty) = false) := by
  unfold Dec.Canonical at h
  rw [Bool.and_eq_true, Bool.and_eq_true, Bool.and_eq_true, Bool.and_eq_true,
    Bool.and_eq_true] at h
  obtain ⟨⟨⟨⟨⟨ha, hb⟩, hc⟩, hd2⟩, he⟩, hf⟩ := h
  refine ⟨?_, hb, hc, hd2, he, ?_⟩
  · intro hnil
    rw [hnil] at ha
    exact absurd ha (by decide)
  · intro hneg
    cases hip : (d.ip == [0]) with
    | false => rw [Bool.false_and]
    | true =>
      cases hfp2 : d.fp.isEmpty with
      | false => rw [Bool.and_false]
      | true =>
        exfalso
        rw [hneg, hip, hfp2] at hf
        exact absurd hf (by decide)

/-- Canonical numerals are fixed points of canonicalization. -/
theorem mkDec_canonical {d : Dec} (h : d.Canonical = true) :
    mkDec d.neg d.ip d.fp = d := by
  obtain ⟨hne, _, _, hlead, hlast, hneg⟩ := canonical_parts h
  have hmk : mkDec d.neg d.ip d.fp
      = ⟨d.neg && !((stripLeadingZeros d.ip == [0]) && (stripTrailingZeros d.fp).isEmpty),
          stripLeadingZeros d.ip, stripTrailingZeros d.fp⟩ := rfl
  rw [hmk, stripLeadingZeros_canonical hlead hne, stripTrailingZeros_canonical hlast]
  have hcomp : ∀ (n1 n2 : Bool) (i f : List Nat), n1 = n2 → (⟨n1, i, f⟩ : Dec) = ⟨n2, i, f⟩ := by
    intro n1 n2 i f hn
    rw [hn]
  apply hcomp
  cases hn : d.neg with
  | false => rw [Bool.false_and]
  | true =>
    rw [hneg hn]
    rfl

/-- A digit list's head is a digit. -/
theorem digitsOk_head {i0 : Nat} {ipt : List Nat} (h : digitsOk (i0 :: ipt) = true) :
    i0 < 10 := by
  have hstep : digitsOk (i0 :: ipt) = ((decide (i0 < 10)) && digitsOk ipt) := rfl
  rw [hstep, Bool.and_eq_true] at h
  exact of_decide_eq_true h.1

/-- Evaluating the digit-splitting step of Number on a rendered numeral. -/
theorem jsNumOfDigits_eval (neg : Bool) {ip fp : List Nat}
    (hip : digitsOk ip = true) (hfp : digitsOk fp = true) :
    jsNumOfDigits neg
      (digitsToChars ip ++ (if fp.isEmpty then [] else '.' :: digitsToChars fp))
      = mkDec neg ip fp := by
  cases fp with
  | nil =>
    show jsNumOfDigits neg (digitsToChars ip ++ []) = mkDec neg ip []
    rw [List.append_nil]
    unfold jsNumOfDigits
    rw [takeWhile_all (digitsToChars_all_digit hip),
      dropWhile_all (digitsToChars_all_digit hip),
      map_charToDigit_digitsToChars hip]
    rfl
  | cons f0 ft =>
    show jsNumOfDigits neg (digitsToChars ip ++ '.' :: digitsToChars (f0 :: ft))
        = mkDec neg ip (f0 :: ft)
    unfold jsNumOfDigits
    rw [takeWhile_append_all _ (digitsToChars_all_digit hip) (by decide),
      dropWhile_append_all _ (digitsToChars_all_digit hip) (by decide),
      map_charToDigit_digitsToChars hip]
    show mkDec neg ip ((if '.' = '.' then digitsToChars (f0 :: ft) else []).map charToDigit)
        = mkDec neg ip (f0 :: ft)
    rw [if_pos rfl, map_charToDigit_digitsToChars hfp]

/-- The core numeric pattern accepts a canonical digits-dot-digits body. -/
theorem numPatternCore_body {ip fp : List Nat} (hne : ip ≠ [])
    (hip : digitsOk ip = true) (hfp : digitsOk fp = true) :
    numPatternCore (digitsToChars ip
      ++ (if fp.isEmpty then [] else '.' :: digitsToChars fp)) = true := by
  have hdigits : ∀ c ∈ digitsToChars ip, c.isDigit = true := digitsToChars_all_digit hip
  have hipne : (digitsToChars ip).isEmpty = false := by
    cases hi : ip with
    | nil => exact absurd hi hne
    | cons a b => rfl
  cases hf : fp with
  | nil =>
    show numPatternCore (digitsToChars ip ++ []) = true
    rw [List.append_nil]
    unfold numPatternCore
    rw [takeWhile_all hdigits, dropWhile_all hdigits, hipne]
    rfl
  | cons f0 ft =>
    show numPatternCore (digitsToChars ip ++ '.' :: digitsToChars (f0 :: ft)) = true
    unfold numPatternCore
    rw [takeWhile_append_all _ hdigits (by decide),
      dropWhile_append_all _ hdigits (by decide), hipne]
    show (!false && (if '.' = '.'
        then (!(digitsToChars (f0 :: ft)).isEmpty)
          && (digitsToChars (f0 :: ft)).all Char.isDigit
        else false)) = true
    rw [if_pos rfl]
    have hall : (digitsToChars (f0 :: ft)).all Char.isDigit = true :=
      List.all_eq_true.mpr (fun c hc => digitsToChars_all_digit (hf ▸ hfp) c hc)
    rw [hall]
    rfl

/-- Number reads a rendered canonical numeral back exactly. -/
theorem jsNumOfStr_render {d : Dec} (h : d.Canonical = true) :
    jsNumOfStr d.render = d := by
  obtain ⟨hne, hip, hfp, _, _, _⟩ := canonical_parts h
  have hrender : d.render
      = (if d.neg then ['-'] else []) ++ (digitsToChars d.ip
        ++ (if d.fp.isEmpty then [] else '.' :: digitsToChars d.fp)) := by
    unfold Dec.render
    rw [List.append_assoc]
  cases hn : d.neg with
  | true =>
    rw [hrender, hn, if_pos rfl]
    show jsNumOfStr ('-' :: (digitsToChars d.ip
      ++ (if d.fp.isEmpty then [] else '.' :: digitsToChars d.fp))) = d
    show (if '-' = '-'
      then jsNumOfDigits true (digitsToChars d.ip
        ++ (if d.fp.isEmpty then [] else '.' :: digitsToChars d.fp))
      else jsNumOfDigits false ('-' :: (digitsToChars d.ip
        ++ (if d.fp.isEmpty then [] else '.' :: digitsToChars d.fp)))) = d
    rw [if_pos rfl, jsNumOfDigits_eval true hip hfp, ← hn, mkDec_canonical h]
  | false =>
    rw [hrender, hn, if_neg (by simp), List.nil_append]
    cases hipc : d.ip with
    | nil => exact absurd hipc hne
    | cons i0 ipt =>
      have hi0 : i0 < 10 := digitsOk_head (hipc ▸ hip)
      show jsNumOfStr (digitToChar i0 :: (digitsToChars ipt
        ++ (if d.fp.isEmpty then [] else '.' :: digitsToChars d.fp))) = d
      show (if digitToChar i0 = '-'
        then jsNumOfDigits true (digitsToChars ipt
          ++ (if d.fp.isEmpty then [] else '.' :: digitsToChars d.fp))
        else jsNumOfDigits false (digitToChar i0 :: (digitsToChars ipt
          ++ (if d.fp.isEmpty then [] else '.' :: digitsToChars d.fp)))) = d
      rw [if_neg (by
        intro hdash
        have h2 := digitToChar_no_dash hi0
        rw [hdash] at h2
        exact absurd h2 (by decide))]
      have hshape : digitToChar i0 :: (digitsToChars ipt
          ++ (if d.fp.isEmpty then [] else '.' :: digitsToChars d.fp))
          = digitsToChars d.ip
            ++ (if d.fp.isEmpty then [] else '.' :: digitsToChars d.fp) := by
        rw [hipc]
        rfl
      rw [hshape, jsNumOfDigits_eval false hip hfp, ← hn, mkDec_canonical h]

/-- The rendered canonical numeral matches the strict numeric pattern. -/
theorem numPattern_render {d : Dec} (h : d.Canonical = true) :
    numPattern d.render = true := by
  obtain ⟨hne, hip, hfp, _, _, _⟩ := canonical_parts h
  have hcore := numPatternCore_body hne hip hfp
  cases hn : d.neg with
  | true =>
    have hrender : d.render = '-' :: (digitsToChars d.ip
        ++ (if d.fp.isEmpty then [] else '.' :: digitsToChars d.fp)) := by
      unfold Dec.render
      rw [hn, if_pos rfl, List.append_assoc]
      rfl
    rw [hrender]
    show numPatternCore (if '-' = '-'
      then digitsToChars d.ip ++ (if d.fp.isEmpty then [] else '.' :: digitsToChars d.fp)
      else '-' :: (digitsToChars d.ip
        ++ (if d.fp.isEmpty then [] else '.' :: digitsToChars d.fp))) = true
    rw [if_pos rfl]
    exact hcore
  | false =>
    have hrender : d.render = digitsToChars d.ip
        ++ (if d.fp.isEmpty then [] else '.' :: digitsToChars d.fp) := by
      unfold Dec.render
      rw [hn, if_neg (by simp), List.nil_append]
    rw [hrender]
    cases hipc : d.ip with
    | nil => exact absurd hipc hne
    | cons i0 ipt =>
      have hi0 : i0 < 10 := digitsOk_head (hipc ▸ hip)
      show numPattern (digitToChar i0 :: (digitsToChars ipt
        ++ (if d.fp.isEmpty then [] else '.' :: digitsToChars d.fp))) = true
      show numPatternCore (if digitToChar i0 = '-'
        then digitsToChars ipt ++ (if d.fp.isEmpty then [] else '.' :: digitsToChars d.fp)
        else digitToChar i0 :: (digitsToChars ipt
          ++ (if d.fp.isEmpty then [] else '.' :: digitsToChars d.fp))) = true
      rw [if_neg (by
        intro hdash
        have h2 := digitToChar_no_dash hi0
        rw [hdash] at h2
        exact absurd h2 (by decide))]
      have hback : digitToChar i0 :: (digitsToChars ipt
          ++ (if d.fp.isEmpty then [] else '.' :: digitsToChars d.fp))
          = digitsToChars d.ip
            ++ (if d.fp.isEmpty then [] else '.' :: digitsToChars d.fp) := by
        rw [hipc]
        rfl
      rw [hback]
      exact hcore

/-- Boolean negation inversion. -/
theorem bool_not_true {b : Bool} (h : (!b) = true) : b = false := by
  cases b
  · rfl
  · cases h

/-- A contains-free character is absent. -/
theorem not_mem_of_contains_false {c : Char} {s : Str} (h : s.contains c = false) :
    c ∉ s := by
  intro hm
  rw [List.contains_eq_any_beq] at h
  have := List.any_eq_false.mp h c hm
  simp at this

/-- Unpacking a well-formed key. -/
theorem wfKey_parts {k : Str} (h : wfKey k = true) :
    ∃ c t, k = c :: t ∧ isIdentStart c = true ∧ ∀ x ∈ t, isWordChar x = true := by
  cases k with
  | nil => cases h
  | cons c t =>
    have hstep : wfKey (c :: t) = (isIdentStart c && t.all isWordChar) := rfl
    rw [hstep, Bool.and_eq_true] at h
    exact ⟨c, t, rfl, h.1, fun x hx => List.all_eq_true.mp h.2 x hx⟩

/-- Unpacking a well-formed string value. -/
theorem wfStrVal_parts {s : Str} (h : wfStrVal s = true) :
    trim s = s ∧ '\n' ∉ s ∧ hasTripleDash s = false
    ∧ s ≠ "true".toList ∧ s ≠ "false".toList ∧ numPattern s = false := by
  unfold wfStrVal at h
  rw [Bool.and_eq_true, Bool.and_eq_true, Bool.and_eq_true, Bool.and_eq_true,
    Bool.and_eq_true] at h
  obtain ⟨⟨⟨⟨⟨h1, h2⟩, h3⟩, h4⟩, h5⟩, h6⟩ := h
  exact ⟨beq_iff_eq.mp h1, not_mem_of_contains_false (bool_not_true h2),
    bool_not_true h3, beq_eq_false_iff_ne.mp (bool_not_true h4),
    beq_eq_false_iff_ne.mp (bool_not_true h5), bool_not_true h6⟩

/-- Unpacking a well-formed list item. -/
theorem wfItem_parts {s : Str} (h : wfItem s = true) :
    s ≠ [] ∧ trim s = s ∧ '\n' ∉ s ∧ hasTripleDash s = false := by
  unfold wfItem at h
  rw [Bool.and_eq_true, Bool.and_eq_true, Bool.and_eq_true] at h
  obtain ⟨⟨⟨h1, h2⟩, h3⟩, h4⟩ := h
  refine ⟨?_, beq_iff_eq.mp h2, not_mem_of_contains_false (bool_not_true h3),
    bool_not_true h4⟩
  intro hnil
  rw [hnil] at h1
  cases h1

/-- Trim-invariance gives both one-sided invariances (list form). -/
theorem trimStart_of_trim_eq {s : Str} (h : trim s = s) : s.dropWhile isWsChar = s :=
  (trim_eq_self_split h).1

/-- A trim-invariant string takes no leading whitespace. -/
theorem takeWhile_ws_nil_of_trim_eq {s : Str} (h : trim s = s) :
    s.takeWhile isWsChar = [] := by
  have hdrop := trimStart_of_trim_eq h
  have hsplit := List.takeWhile_append_dropWhile (p := isWsChar) (l := s)
  rw [hdrop] at hsplit
  have hlen := congrArg List.length hsplit
  rw [List.length_append] at hlen
  have : (s.takeWhile isWsChar).length = 0 := by omega
  exact List.eq_nil_of_length_eq_zero this

/-- The last character of a trim-invariant nonempty string is not
whitespace. -/
theorem getLast_not_ws_of_trim_eq {s : Str} (h : trim s = s) {c : Char}
    (hl : s.getLast? = some c) : isWsChar c = false := by
  by_contra hws
  rw [Bool.not_eq_false] at hws
  have hte : trimEnd s = s := (trim_eq_self_split h).2
  rw [← List.head?_reverse] at hl
  cases hrev : s.reverse with
  | nil => rw [hrev] at hl; exact absurd hl (by simp)
  | cons x t =>
    rw [hrev, List.head?_cons] at hl
    have hx : x = c := Option.some.inj hl
    have hlen1 : s.length = t.length + 1 := by
      have hh := congrArg List.length hrev
      rw [List.length_reverse] at hh
      simpa using hh
    have h2 : trimEnd s = (t.dropWhile isWsChar).reverse := by
      unfold trimEnd
      rw [hrev, List.dropWhile_cons, if_pos (by rw [hx]; exact hws)]
    rw [hte] at h2
    have hlen2 := congrArg List.length h2
    rw [List.length_reverse] at hlen2
    have hle : (t.dropWhile isWsChar).length ≤ t.length :=
      (List.dropWhile_suffix _).length_le
    omega

/-- parseValue keeps a nonempty well-formed string literal. -/
theorem parseValue_wfStr {s : Str} (h : wfStrVal s = true) (hne : s ≠ []) :
    parseValue s = .str s := by
  obtain ⟨_, _, _, h4, h5, h6⟩ := wfStrVal_parts h
  have hie : s.isEmpty = false := by
    cases s with
    | nil => exact absurd rfl hne
    | cons a t => rfl
  unfold parseValue
  rw [if_neg (by rw [hie]; exact Bool.false_ne_true), if_neg h4, if_neg h5,
    if_neg (by rw [h6]; exact Bool.false_ne_true)]

/-- parseValue coerces a rendered canonical numeral back to the numeral. -/
theorem parseValue_render {d : Dec} (h : d.Canonical = true) :
    parseValue d.render = .num d := by
  have hnum := numPattern_render h
  have hie : d.render.isEmpty = false := by
    cases hr : d.render with
    | nil => rw [hr] at hnum; exact absurd hnum (by decide)
    | cons a t => rfl
  have hnt : d.render ≠ "true".toList := by
    intro he
    rw [he] at hnum
    exact absurd hnum (by decide)
  have hnf : d.render ≠ "false".toList := by
    intro he
    rw [he] at hnum
    exact absurd hnum (by decide)
  unfold parseValue
  rw [if_neg (by rw [hie]; exact Bool.false_ne_true), if_neg hnt, if_neg hnf,
    if_pos hnum, jsNumOfStr_render h]

/-- Variants of the boundary lemmas with an arbitrary (possibly empty) right
part whose head fails the predicate. -/
theorem takeWhile_append_all2 {α : Type} {p : α → Bool} {A B : List α}
    (hA : ∀ a ∈ A, p a = true) (hB : ∀ b, B.head? = some b → p b = false) :
    (A ++ B).takeWhile p = A := by
  cases B with
  | nil => rw [List.append_nil]; exact takeWhile_all hA
  | cons b bs => exact takeWhile_append_all _ hA (hB b rfl)

/-- dropWhile lands on the right part under the same conditions. -/
theorem dropWhile_append_all2 {α : Type} {p : α → Bool} {A B : List α}
    (hA : ∀ a ∈ A, p a = true) (hB : ∀ b, B.head? = some b → p b = false) :
    (A ++ B).dropWhile p = B := by
  cases B with
  | nil => rw [List.append_nil]; exact dropWhile_all hA
  | cons b bs => exact dropWhile_append_all _ hA (hB b rfl)

/-- The key-line pattern parses a well-formed key followed by a colon. -/
theorem matchKeyLine_entry {k : Str} (tail : Str) (hk : wfKey k = true) :
    matchKeyLine (k ++ ':' :: tail) = some (k, tail.dropWhile isWsChar) := by
  obtain ⟨c, kt, rfl, hc, hw⟩ := wfKey_parts hk
  show (if isIdentStart c = true then
      match ((kt ++ ':' :: tail).dropWhile isWordChar).dropWhile isWsChar with
      | c2 :: r2 =>
        if c2 = ':' then some (c :: (kt ++ ':' :: tail).takeWhile isWordChar,
          r2.dropWhile isWsChar)
        else none
      | [] => none
    else none) = some (c :: kt, tail.dropWhile isWsChar)
  rw [if_pos hc, takeWhile_append_all _ hw (by decide),
    dropWhile_append_all _ hw (by decide),
    dropWhile_head_no (fun c2 hc2 => by rw [← Option.some.inj hc2]; decide)]
  show (if ':' = ':' then some (c :: kt, tail.dropWhile isWsChar) else none)
      = some (c :: kt, tail.dropWhile isWsChar)
  rw [if_pos rfl]

/-- An array-item line is recognized by the array-item test. -/
theorem isArrayItemLine_item (x : Str) :
    isArrayItemLine ("  - ".toList ++ x) = true := rfl

/-- takeWhile is empty when the head already fails. -/
theorem takeWhile_ws_nil_of_head {line : Str}
    (h : ∀ c, line.head? = some c → isWsChar c = false) :
    line.takeWhile isWsChar = [] := by
  cases line with
  | nil => rfl
  | cons a t =>
    rw [List.takeWhile_cons, if_neg (by rw [h a rfl]; exact Bool.false_ne_true)]

/-- A line starting with a non-whitespace character is not an array item. -/
theorem isArrayItemLine_false_of_head {line : Str}
    (h : ∀ c, line.head? = some c → isWsChar c = false) :
    isArrayItemLine line = false := by
  unfold isArrayItemLine
  rw [takeWhile_ws_nil_of_head h]
  rfl

/-- The array-item capture on a serialized item line. -/
theorem matchArrayItem_item {x : Str} (hx : x.takeWhile isWsChar = []) :
    matchArrayItem ("  - ".toList ++ x) = some (x.dropWhile isWsChar) := by
  have h1 : ((' ' :: ' ' :: '-' :: ' ' :: x : Str)).takeWhile isWsChar = [' ', ' '] := rfl
  have h2 : ((' ' :: ' ' :: '-' :: ' ' :: x : Str)).dropWhile isWsChar = '-' :: ' ' :: x := rfl
  show matchArrayItem (' ' :: ' ' :: '-' :: ' ' :: x) = some (x.dropWhile isWsChar)
  unfold matchArrayItem
  rw [h1, h2]
  rw [if_neg (by decide)]
  show (if '-' = '-' then
      (if (((' ' :: x : Str)).takeWhile isWsChar).isEmpty then none
       else some ((' ' :: x : Str).dropWhile isWsChar))
    else none) = some (x.dropWhile isWsChar)
  rw [if_pos rfl]
  have h3 : ((' ' :: x : Str)).takeWhile isWsChar = ' ' :: x.takeWhile isWsChar := by
    rw [List.takeWhile_cons, if_pos (by decide)]
  have h4 : ((' ' :: x : Str)).dropWhile isWsChar = x.dropWhile isWsChar := by
    rw [List.dropWhile_cons, if_pos (by decide)]
  rw [h3, hx, h4]
  rfl

/-- collectArrayItems gathers exactly the serialized items and the loop stops
at the first non-item line. -/
theorem collectArrayItems_items {xs : List Str} (hxs : ∀ x ∈ xs, wfItem x = true)
    {restLines : List Str}
    (hrest : ∀ r, restLines.head? = some r → isArrayItemLine r = false) :
    collectArrayItems ((xs.map (fun x => "  - ".toList ++ x)) ++ restLines) = xs
    ∧ ((xs.map (fun x => "  - ".toList ++ x)) ++ restLines).dropWhile isArrayItemLine
        = restLines := by
  have htake : ((xs.map (fun x => "  - ".toList ++ x)) ++ restLines).takeWhile
      isArrayItemLine = xs.map (fun x => "  - ".toList ++ x) :=
    takeWhile_append_all2
      (fun l hl => by
        rcases List.mem_map.mp hl with ⟨x, _, rfl⟩
        exact isArrayItemLine_item x)
      hrest
  have hdrop : ((xs.map (fun x => "  - ".toList ++ x)) ++ restLines).dropWhile
      isArrayItemLine = restLines :=
    dropWhile_append_all2
      (fun l hl => by
        rcases List.mem_map.mp hl with ⟨x, _, rfl⟩
        exact isArrayItemLine_item x)
      hrest
  refine ⟨?_, hdrop⟩
  unfold collectArrayItems
  rw [htake]
  clear htake hdrop hrest
  induction xs with
  | nil => rfl
  | cons x xt ih =>
    obtain ⟨hne, htr, _, _⟩ := wfItem_parts (hxs x (List.mem_cons_self _ _))
    have hitem := matchArrayItem_item (x := x) (takeWhile_ws_nil_of_trim_eq htr)
    rw [List.map_cons, List.filterMap_cons, hitem]
    show (trim (x.dropWhile isWsChar))
        :: (xt.map (fun y => "  - ".toList ++ y)).filterMap
          (fun l => (matchArrayItem l).map trim) = x :: xt
    rw [trimStart_of_trim_eq htr, htr,
      ih (fun y hy => hxs y (List.mem_cons_of_mem x hy))]

/-- JS assignment appends when the key is new. -/
theorem upsert_append {acc : Record} {k : Str} (v : JsVal)
    (hacc : ∀ e ∈ acc, e.1 ≠ k) : upsert acc k v = acc ++ [(k, v)] := by
  induction acc with
  | nil => rfl
  | cons e t ih =>
    show (if e.1 = k then (e.1, v) :: t else (e.1, e.2) :: upsert t k v) = _
    rw [if_neg (hacc e (List.mem_cons_self _ _)),
      ih (fun x hx => hacc x (List.mem_cons_of_mem e hx))]
    rfl

/-- The loop result is independent of the fuel once the fuel covers the
remaining lines. -/
theorem parseLinesGo_fuel : ∀ n m (ls : List Str) (md : Record),
    ls.length ≤ n → ls.length ≤ m → parseLinesGo n ls md = parseLinesGo m ls md := by
  intro n
  induction n with
  | zero =>
    intro m ls md hn _
    have hnil : ls = [] := List.eq_nil_of_length_eq_zero (Nat.le_zero.mp hn)
    subst hnil
    cases m <;> rfl
  | succ n ih =>
    intro m ls md hn hm
    cases ls with
    | nil => cases m <;> rfl
    | cons l rest =>
      cases m with
      | zero => exact absurd hm (by simp)
      | succ m2 =>
        rw [List.length_cons] at hn hm
        have hn2 : rest.length ≤ n := Nat.succ_le_succ_iff.mp hn
        have hm2 : rest.length ≤ m2 := Nat.succ_le_succ_iff.mp hm
        show (match matchKeyLine l with
          | none => parseLinesGo n rest md
          | some kv =>
            if (trim kv.2).isEmpty && nextLineIsItem rest then
              parseLinesGo n (rest.dropWhile isArrayItemLine)
                (upsert md kv.1 (.list (collectArrayItems rest)))
            else
              parseLinesGo n rest (upsert md kv.1 (parseValue (trim kv.2))))
          = (match matchKeyLine l with
          | none => parseLinesGo m2 rest md
          | some kv =>
            if (trim kv.2).isEmpty && nextLineIsItem rest then
              parseLinesGo m2 (rest.dropWhile isArrayItemLine)
                (upsert md kv.1 (.list (collectArrayItems rest)))
            else
              parseLinesGo m2 rest (upsert md kv.1 (parseValue (trim kv.2))))
        cases matchKeyLine l with
        | none => exact ih m2 rest md hn2 hm2
        | some kv =>
          show (if (trim kv.2).isEmpty && nextLineIsItem rest then
              parseLinesGo n (rest.dropWhile isArrayItemLine)
                (upsert md kv.1 (.list (collectArrayItems rest)))
            else parseLinesGo n rest (upsert md kv.1 (parseValue (trim kv.2))))
            = (if (trim kv.2).isEmpty && nextLineIsItem rest then
              parseLinesGo m2 (rest.dropWhile isArrayItemLine)
                (upsert md kv.1 (.list (collectArrayItems rest)))
            else parseLinesGo m2 rest (upsert md kv.1 (parseValue (trim kv.2))))
          by_cases hc : ((trim kv.2).isEmpty && nextLineIsItem rest) = true
          · rw [if_pos hc, if_pos hc]
            have hd : (rest.dropWhile isArrayItemLine).length ≤ rest.length :=
              List.Sublist.length_le (List.dropWhile_sublist _)
            exact ih m2 _ _ (le_trans hd hn2) (le_trans hd hm2)
          · rw [if_neg hc, if_neg hc]
            exact ih m2 rest _ hn2 hm2

/-- The loop on no lines returns the accumulator. -/
theorem parseLines_nil (md : Record) : parseLines [] md = md := rfl

/-- One iteration of the loop. -/
theorem parseLines_cons (l : Str) (rest : List Str) (md : Record) :
    parseLines (l :: rest) md
      = match matchKeyLine l with
        | none => parseLines rest md
        | some kv =>
          if (trim kv.2).isEmpty && nextLineIsItem rest then
            parseLines (rest.dropWhile isArrayItemLine)
              (upsert md kv.1 (.list (collectArrayItems rest)))
          else
            parseLines rest (upsert md kv.1 (parseValue (trim kv.2))) := by
  show parseLinesGo (rest.length + 1) (l :: rest) md = _
  show (match matchKeyLine l with
    | none => parseLinesGo rest.length rest md
    | some kv =>
      if (trim kv.2).isEmpty && nextLineIsItem rest then
        parseLinesGo rest.length (rest.dropWhile isArrayItemLine)
          (upsert md kv.1 (.list (collectArrayItems rest)))
      else
        parseLinesGo rest.length rest (upsert md kv.1 (parseValue (trim kv.2)))) = _
  cases matchKeyLine l with
  | none => rfl
  | some kv =>
    show (if (trim kv.2).isEmpty && nextLineIsItem rest then
        parseLinesGo rest.length (rest.dropWhile isArrayItemLine)
          (upsert md kv.1 (.list (collectArrayItems rest)))
      else parseLinesGo rest.length rest (upsert md kv.1 (parseValue (trim kv.2))))
      = (if (trim kv.2).isEmpty && nextLineIsItem rest then
        parseLines (rest.dropWhile isArrayItemLine)
          (upsert md kv.1 (.list (collectArrayItems rest)))
      else parseLines rest (upsert md kv.1 (parseValue (trim kv.2))))
    by_cases hc : ((trim kv.2).isEmpty && nextLineIsItem rest) = true
    · rw [if_pos hc, if_pos hc]
      exact parseLinesGo_fuel _ _ _ _
        (List.Sublist.length_le (List.dropWhile_sublist _)) (le_refl _)
    · rw [if_neg hc, if_neg hc]
      rfl

/-- The recognized whitespace characters, by cases. -/
theorem ws_char_cases {c : Char} (h : isWsChar c = true) :
    c = ' ' ∨ c = '\t' ∨ c = '\n' ∨ c = '\r' := by
  simp only [isWsChar, Bool.or_eq_true, decide_eq_true_eq] at h
  tauto

/-- A key-start character is not a dash. -/
theorem ident_no_dash {c : Char} (h : isIdentStart c = true) : ('-' == c) = false := by
  cases hbe : ('-' == c) with
  | false => rfl
  | true =>
    rw [← beq_iff_eq.mp hbe] at h
    exact absurd h (by decide)

/-- A word character is not a dash. -/
theorem word_no_dash {c : Char} (h : isWordChar c = true) : ('-' == c) = false := by
  cases hbe : ('-' == c) with
  | false => rfl
  | true =>
    rw [← beq_iff_eq.mp hbe] at h
    exact absurd h (by decide)

/-- A key-start character is not whitespace. -/
theorem ident_not_ws {c : Char} (h : isIdentStart c = true) : isWsChar c = false := by
  cases hws : isWsChar c with
  | false => rfl
  | true =>
    rcases ws_char_cases hws with rfl | rfl | rfl | rfl <;> exact absurd h (by decide)

/-- A word character is not a newline. -/
theorem word_not_nl {c : Char} (h : isWordChar c = true) : c ≠ '\n' := by
  intro he
  rw [he] at h
  exact absurd h (by decide)

/-- A key-start character is not a newline. -/
theorem ident_not_nl {c : Char} (h : isIdentStart c = true) : c ≠ '\n' := by
  intro he
  rw [he] at h
  exact absurd h (by decide)

/-- dropWhile distributes over a final element failing the predicate. -/
theorem dropWhile_append_single {α : Type} {p : α → Bool} {A : List α} {c : α}
    (hc : p c = false) : (A ++ [c]).dropWhile p = A.dropWhile p ++ [c] := by
  by_cases hex : ∃ x ∈ A, p x = false
  · exact dropWhile_append_of_exists [c] hex
  · have hall : ∀ x ∈ A, p x = true := by
      intro x hx
      cases hpx : p x with
      | true => rfl
      | false => exact absurd ⟨x, hx, hpx⟩ hex
    rw [dropWhile_append_all2 hall
        (fun b hb => by
          rw [List.head?_cons] at hb
          rw [← Option.some.inj hb]
          exact hc),
      dropWhile_all hall]
    rfl

/-- Right-trim steps over a leading non-whitespace character. -/
theorem trimEnd_cons_of_not_ws {c : Char} {t : Str} (hc : isWsChar c = false) :
    trimEnd (c :: t) = c :: trimEnd t := by
  unfold trimEnd
  rw [List.reverse_cons, dropWhile_append_single hc, List.reverse_append]
  rfl

/-- Right-trim absorbs a trailing whitespace character. -/
theorem trimEnd_concat_ws {A : Str} {c : Char} (hc : isWsChar c = true) :
    trimEnd (A ++ [c]) = trimEnd A := by
  unfold trimEnd
  have hrev : (A ++ [c]).reverse = c :: A.reverse := by simp
  rw [hrev, List.dropWhile_cons, if_pos hc]

/-- Right-trim keeps a string holding a non-whitespace character nonempty. -/
theorem trimEnd_ne_nil_of_mem {s : Str} (h : ∃ c ∈ s, isWsChar c = false) :
    trimEnd s ≠ [] := by
  unfold trimEnd
  intro he
  rw [List.reverse_eq_nil_iff, List.dropWhile_eq_nil_iff] at he
  rcases h with ⟨c, hc, hcw⟩
  have := he c (List.mem_reverse.mpr hc)
  rw [hcw] at this
  cases this

/-- Right-trim only keeps characters of the string. -/
theorem mem_of_mem_trimEnd {c : Char} {s : Str} (h : c ∈ trimEnd s) : c ∈ s := by
  unfold trimEnd at h
  rw [List.mem_reverse] at h
  exact List.mem_reverse.mp ((List.dropWhile_suffix _).subset h)

/-- Right-trim keeps the head when it is not whitespace. -/
theorem head?_trimEnd {s : Str} {c : Char} (hh : s.head? = some c)
    (hc : isWsChar c = false) : (trimEnd s).head? = some c := by
  cases s with
  | nil => exact absurd hh (by simp)
  | cons a t =>
    have ha : a = c := Option.some.inj hh
    subst ha
    rw [trimEnd_cons_of_not_ws hc]
    rfl

/-- The last element is an element. -/
theorem mem_of_getLast?_some {α : Type} {a : α} {l : List α}
    (h : l.getLast? = some a) : a ∈ l := by
  rw [← List.head?_reverse] at h
  cases hrev : l.reverse with
  | nil => rw [hrev] at h; exact absurd h (by simp)
  | cons x t =>
    rw [hrev, List.head?_cons] at h
    have hx : x = a := Option.some.inj h
    subst hx
    have hmem : x ∈ l.reverse := by rw [hrev]; exact List.mem_cons_self x t
    exact List.mem_reverse.mp hmem

/-- The delimiter cannot straddle the boundary of two delimiter-free blocks
when the left block does not end in a dash. -/
theorem noTriple_append_last {A B : Str} (hA : NoTriple A) (hB : NoTriple B)
    (hlast : ∀ c, A.getLast? = some c → ('-' == c) = false) :
    NoTriple (A ++ B) := by
  intro zs hzs
  rcases suffix_append_split hzs with hzB | ⟨s1, h1, h2, rfl⟩
  · exact hB zs hzB
  · match s1, h1 with
    | [x], _ =>
      have hx : ('-' == x) = false := hlast x ((suffix_getLast? h2 (by simp)).symm)
      have hstep : ("---".toList).isPrefixOf ([x] ++ B)
          = (('-' == x) && ("--".toList).isPrefixOf B) := rfl
      rw [hstep, hx, Bool.false_and]
    | [x, y], _ =>
      have hy : ('-' == y) = false := hlast y ((suffix_getLast? h2 (by simp)).symm)
      have hstep : ("---".toList).isPrefixOf ([x, y] ++ B)
          = (('-' == x) && (('-' == y) && ("-".toList).isPrefixOf B)) := rfl
      rw [hstep, hy, Bool.false_and, Bool.and_false]
    | x :: y :: z :: w, _ =>
      have hfree : ("---".toList).isPrefixOf (x :: y :: z :: w) = false := hA _ h2
      have hsame : ("---".toList).isPrefixOf (x :: y :: z :: (w ++ B))
          = ("---".toList).isPrefixOf (x :: y :: z :: w) := by
        have e1 : ("---".toList).isPrefixOf (x :: y :: z :: (w ++ B))
            = (('-' == x) && (('-' == y) && (('-' == z)
                && (([] : Str).isPrefixOf (w ++ B))))) := rfl
        have e2 : ("---".toList).isPrefixOf (x :: y :: z :: w)
            = (('-' == x) && (('-' == y) && (('-' == z)
                && (([] : Str).isPrefixOf w)))) := rfl
        rw [e1, e2, nil_isPrefixOf_true, nil_isPrefixOf_true]
      rw [List.cons_append, List.cons_append, List.cons_append, hsame, hfree]

/-- A single leading dash stays delimiter-free when the rest does not open
with a dash. -/
theorem noTriple_dash_cons {X : Str} (hX : NoTriple X)
    (hhead : ∀ c, X.head? = some c → ('-' == c) = false) :
    NoTriple ('-' :: X) := by
  intro zs hzs
  rcases List.suffix_cons_iff.mp hzs with rfl | h2
  · cases X with
    | nil => decide
    | cons b bs =>
      have hb := hhead b rfl
      have hstep : ("---".toList).isPrefixOf ('-' :: b :: bs)
          = (('-' == '-') && (('-' == b) && ("-".toList).isPrefixOf bs)) := rfl
      rw [hstep, hb, Bool.false_and, Bool.and_false]
  · exact hX zs h2

/-- The serializer's delimiter test certifies delimiter-freedom. -/
theorem noTriple_of_hasTripleDash {s : Str} (h : hasTripleDash s = false) :
    NoTriple s := by
  apply noTriple_of_findSubAux_none
  unfold hasTripleDash at h
  cases hf : findSubAux "---".toList s with
  | none => rfl
  | some v => rw [hf] at h; exact absurd h (by simp)

/-- Searching for the delimiter skips a delimiter-free block not ending in a
dash. -/
theorem findSubAux_after_block {X : Str} (ys : Str) (hX : NoTriple X)
    (hlast : ∀ c, X.getLast? = some c → ('-' == c) = false) :
    findSubAux "---".toList (X ++ ys)
      = (findSubAux "---".toList ys).map (· + X.length) := by
  apply findSubAux_append
  intro zs hne hzs
  match zs, hne with
  | [x], _ =>
    have hx : ('-' == x) = false := hlast x ((suffix_getLast? hzs (by simp)).symm)
    have hstep : ("---".toList).isPrefixOf ([x] ++ ys)
        = (('-' == x) && ("--".toList).isPrefixOf ys) := rfl
    rw [hstep, hx, Bool.false_and]
  | [x, y], _ =>
    have hy : ('-' == y) = false := hlast y ((suffix_getLast? hzs (by simp)).symm)
    have hstep : ("---".toList).isPrefixOf ([x, y] ++ ys)
        = (('-' == x) && (('-' == y) && ("-".toList).isPrefixOf ys)) := rfl
    rw [hstep, hy, Bool.false_and, Bool.and_false]
  | x :: y :: z :: w, _ =>
    have hfree : ("---".toList).isPrefixOf (x :: y :: z :: w) = false := hX _ hzs
    have hsame : ("---".toList).isPrefixOf (x :: y :: z :: (w ++ ys))
        = ("---".toList).isPrefixOf (x :: y :: z :: w) := by
      have e1 : ("---".toList).isPrefixOf (x :: y :: z :: (w ++ ys))
          = (('-' == x) && (('-' == y) && (('-' == z)
              && (([] : Str).isPrefixOf (w ++ ys))))) := rfl
      have e2 : ("---".toList).isPrefixOf (x :: y :: z :: w)
          = (('-' == x) && (('-' == y) && (('-' == z)
              && (([] : Str).isPrefixOf w)))) := rfl
      rw [e1, e2, nil_isPrefixOf_true, nil_isPrefixOf_true]
    rw [List.cons_append, List.cons_append, List.cons_append, hsame, hfree]

/-- The delimiter search finds it at position zero when it leads. -/
theorem findSubAux_triple_head (r : Str) :
    findSubAux "---".toList ('-' :: '-' :: '-' :: r) = some 0 := by
  have hpre : ("---".toList).isPrefixOf ('-' :: '-' :: '-' :: r) = true := by
    show (('-' == '-') && (('-' == '-') && (('-' == '-')
        && (([] : Str).isPrefixOf r)))) = true
    rw [nil_isPrefixOf_true]
    decide
  show (if ("---".toList).isPrefixOf ('-' :: '-' :: '-' :: r) = true then some 0
    else (findSubAux "---".toList ('-' :: '-' :: r)).map (· + 1)) = some 0
  rw [if_pos hpre]

/-- joinNl peels the first line off a nonempty tail. -/
theorem joinNl_cons {l : Str} {ys : List Str} (h : ys ≠ []) :
    joinNl (l :: ys) = l ++ '\n' :: joinNl ys := by
  cases ys with
  | nil => cases h rfl
  | cons m t => rfl

/-- The head of a joined block whose first line is nonempty. -/
theorem joinNl_head (c : Char) (l : Str) (t : List Str) :
    (joinNl ((c :: l) :: t)).head? = some c := by
  cases t with
  | nil => rfl
  | cons m t2 => rfl

/-- A joined block with a nonempty first line is nonempty. -/
theorem joinNl_isEmpty_false {z : Str} (zt : List Str) (hz : z ≠ []) :
    (joinNl (z :: zt)).isEmpty = false := by
  cases z with
  | nil => cases hz rfl
  | cons c t =>
    cases zt with
    | nil => rfl
    | cons m t2 => rfl

/-- adjustLast preserves nonemptiness. -/
theorem adjustLast_ne_nil {ls : List Str} (h : ls ≠ []) : adjustLast ls ≠ [] := by
  cases ls with
  | nil => cases h rfl
  | cons l t =>
    cases t with
    | nil => exact List.cons_ne_nil _ _
    | cons m t2 => exact List.cons_ne_nil _ _

/-- adjustLast only touches the final block of lines. -/
theorem adjustLast_append {A B : List Str} (hB : B ≠ []) :
    adjustLast (A ++ B) = A ++ adjustLast B := by
  induction A with
  | nil => rfl
  | cons a t ih =>
    cases ht : t ++ B with
    | nil => exact absurd (List.append_eq_nil.mp ht).2 hB
    | cons x w =>
      show adjustLast (a :: (t ++ B)) = a :: (t ++ adjustLast B)
      rw [ht]
      show a :: adjustLast (x :: w) = a :: (t ++ adjustLast B)
      rw [← ht, ih]

/-- adjustLast is the identity when the final line is already right-trimmed. -/
theorem adjustLast_eq_self : ∀ {ls : List Str} {l : Str}, ls.getLast? = some l →
    trimEnd l = l → adjustLast ls = ls := by
  intro ls
  induction ls with
  | nil => intro l hl _; exact absurd hl (by simp)
  | cons x t ih =>
    intro l hl h
    cases t with
    | nil =>
      rw [List.getLast?_singleton] at hl
      have hx : x = l := Option.some.inj hl
      subst hx
      show [trimEnd x] = [x]
      rw [h]
    | cons m t2 =>
      rw [List.getLast?_cons_cons] at hl
      show x :: adjustLast (m :: t2) = x :: m :: t2
      rw [ih hl h]

/-- The head of adjustLast on a cons is the first line, possibly trimmed. -/
theorem adjustLast_cons_head (l : Str) (t : List Str) :
    (adjustLast (l :: t)).head? = some (trimEnd l)
      ∨ (adjustLast (l :: t)).head? = some l := by
  cases t with
  | nil => left; rfl
  | cons m t2 => right; rfl

/-- Lines of adjustLast come from the original lines, possibly trimmed. -/
theorem mem_adjustLast : ∀ {ls : List Str} {l : Str}, l ∈ adjustLast ls →
    ∃ m ∈ ls, l = m ∨ l = trimEnd m := by
  intro ls
  induction ls with
  | nil => intro l hl; cases hl
  | cons x t ih =>
    intro l hl
    cases t with
    | nil =>
      have h3 : l = trimEnd x := List.mem_singleton.mp hl
      exact ⟨x, List.mem_cons_self _ _, Or.inr h3⟩
    | cons m t2 =>
      have h2 : l ∈ x :: adjustLast (m :: t2) := hl
      rcases List.mem_cons.mp h2 with rfl | h3
      · exact ⟨l, List.mem_cons_self _ _, Or.inl rfl⟩
      · rcases ih h3 with ⟨m2, hm2, hor⟩
        exact ⟨m2, List.mem_cons_of_mem _ hm2, hor⟩

/-- entriesLines unfolds entrywise. -/
theorem entriesLines_cons (e : Str × JsVal) (t : Record) :
    entriesLines (e :: t) = entryLines e ++ entriesLines t := rfl

/-- Each entry serializes to at least one line. -/
theorem entryLines_ne_nil (e : Str × JsVal) : entryLines e ≠ [] := by
  rcases e with ⟨k, v⟩
  cases v with
  | str s => exact List.cons_ne_nil _ _
  | bool b => exact List.cons_ne_nil _ _
  | num d => exact List.cons_ne_nil _ _
  | list items => exact List.cons_ne_nil _ _

/-- The serialized lines of a nonempty record are nonempty. -/
theorem entriesLines_ne_nil {md : Record} (h : md ≠ []) : entriesLines md ≠ [] := by
  cases md with
  | nil => cases h rfl
  | cons e t =>
    rw [entriesLines_cons]
    intro he
    exact entryLines_ne_nil e (List.append_eq_nil.mp he).1

/-- Trim absorbs a leading whitespace character. -/
theorem trim_cons_ws {c : Char} {s : Str} (hc : isWsChar c = true) :
    trim (c :: s) = trim s := by
  unfold trim trimStart
  rw [List.dropWhile_cons, if_pos hc]

/-- A nonempty list is not isEmpty. -/
theorem isEmpty_false_of_ne_nil {α : Type} {l : List α} (h : l ≠ []) :
    l.isEmpty = false := by
  cases l with
  | nil => cases h rfl
  | cons a t => rfl

/-- The head is a member. -/
theorem mem_of_head?_some {α : Type} {a : α} {l : List α} (h : l.head? = some a) :
    a ∈ l := by
  cases l with
  | nil => exact absurd h (by simp)
  | cons x t =>
    rw [List.head?_cons] at h
    rw [← Option.some.inj h]
    exact List.mem_cons_self x t

/-- The first line of an entry extends its key. -/
theorem entryLines_shape (k : Str) (v : JsVal) :
    ∃ tl rest0, entryLines (k, v) = (k ++ tl) :: rest0 := by
  cases v with
  | str s =>
    refine ⟨": ".toList ++ jsValToStr (JsVal.str s), [], ?_⟩
    show [k ++ ": ".toList ++ jsValToStr (JsVal.str s)] = _
    rw [List.append_assoc]
  | bool b =>
    refine ⟨": ".toList ++ jsValToStr (JsVal.bool b), [], ?_⟩
    show [k ++ ": ".toList ++ jsValToStr (JsVal.bool b)] = _
    rw [List.append_assoc]
  | num d =>
    refine ⟨": ".toList ++ jsValToStr (JsVal.num d), [], ?_⟩
    show [k ++ ": ".toList ++ jsValToStr (JsVal.num d)] = _
    rw [List.append_assoc]
  | list items =>
    exact ⟨":".toList, items.map (fun it => "  - ".toList ++ it), rfl⟩

/-- trimEnd over a joined block right-trims exactly the final line. -/
theorem trimEnd_joinNl : ∀ {ls : List Str},
    (∀ l ∈ ls, ∃ c ∈ l, isWsChar c = false) →
    trimEnd (joinNl ls) = joinNl (adjustLast ls) := by
  intro ls
  induction ls with
  | nil => intro _; rfl
  | cons l t ih =>
    intro h
    cases t with
    | nil => rfl
    | cons m t2 =>
      have hjoin : joinNl (l :: m :: t2) = l ++ '\n' :: joinNl (m :: t2) := rfl
      rw [hjoin]
      have hmem : ∃ c ∈ ('\n' :: joinNl (m :: t2) : Str), isWsChar c = false := by
        rcases h m (List.mem_cons_of_mem _ (List.mem_cons_self _ _)) with ⟨c, hcm, hcw⟩
        exact ⟨c, List.mem_cons_of_mem _ (mem_joinNl (List.mem_cons_self _ _) hcm), hcw⟩
      rw [trimEnd_append_of_mem hmem]
      have h3 : ∃ c ∈ joinNl (m :: t2), isWsChar c = false := by
        rcases h m (List.mem_cons_of_mem _ (List.mem_cons_self _ _)) with ⟨c, hcm, hcw⟩
        exact ⟨c, mem_joinNl (List.mem_cons_self _ _) hcm, hcw⟩
      have h4 := trimEnd_append_of_mem (A := ['\n']) h3
      rw [List.singleton_append] at h4
      rw [h4, ih (fun x hx => h x (List.mem_cons_of_mem _ hx))]
      have h5 : adjustLast (l :: m :: t2) = l :: adjustLast (m :: t2) := rfl
      rw [h5, joinNl_cons (adjustLast_ne_nil (by simp))]
      rfl

/-- Characters of a rendered canonical numeral: dash, dot, or a digit. -/
theorem render_chars {d : Dec} (h : d.Canonical = true) :
    ∀ c ∈ d.render, c = '-' ∨ c = '.' ∨ ∃ g, g < 10 ∧ c = digitToChar g := by
  obtain ⟨hne, hip, hfp, _, _, _⟩ := canonical_parts h
  intro c hc
  unfold Dec.render at hc
  rcases List.mem_append.mp hc with h1 | h2
  · rcases List.mem_append.mp h1 with hs | hi
    · cases hn : d.neg with
      | false => rw [hn, if_neg (by simp)] at hs; cases hs
      | true =>
        rw [hn, if_pos rfl] at hs
        left
        exact List.mem_singleton.mp hs
    · right; right
      rcases List.mem_map.mp hi with ⟨g, hg, rfl⟩
      exact ⟨g, of_decide_eq_true (List.all_eq_true.mp hip g hg), rfl⟩
  · by_cases hfe : d.fp.isEmpty = true
    · rw [if_pos hfe] at h2
      cases h2
    · rw [if_neg hfe] at h2
      rcases List.mem_cons.mp h2 with rfl | h3
      · right; left; rfl
      · right; right
        rcases List.mem_map.mp h3 with ⟨g, hg, rfl⟩
        exact ⟨g, of_decide_eq_true (List.all_eq_true.mp hfp g hg), rfl⟩

/-- A rendered canonical numeral has no whitespace. -/
theorem render_no_ws {d : Dec} (h : d.Canonical = true) :
    ∀ c ∈ d.render, isWsChar c = false := by
  intro c hc
  rcases render_chars h c hc with rfl | rfl | ⟨g, hg, rfl⟩
  · decide
  · decide
  · exact digitToChar_not_ws hg

/-- A rendered canonical numeral is nonempty. -/
theorem render_ne_nil {d : Dec} (h : d.Canonical = true) : d.render ≠ [] := by
  obtain ⟨hne, hip, hfp, _, _, _⟩ := canonical_parts h
  unfold Dec.render
  intro he
  have h1 := (List.append_eq_nil.mp he).1
  have h2 := (List.append_eq_nil.mp h1).2
  exact hne (List.map_eq_nil_iff.mp h2)

/-- A rendered canonical numeral is delimiter-free. -/
theorem noTriple_render {d : Dec} (h : d.Canonical = true) : NoTriple d.render := by
  obtain ⟨hne, hip, hfp, _, _, _⟩ := canonical_parts h
  have hbody : ∀ c ∈ digitsToChars d.ip
      ++ (if d.fp.isEmpty then [] else '.' :: digitsToChars d.fp),
      ('-' == c) = false := by
    intro c hc
    rcases List.mem_append.mp hc with h1 | h2
    · rcases List.mem_map.mp h1 with ⟨g, hg, rfl⟩
      exact digitToChar_no_dash (of_decide_eq_true (List.all_eq_true.mp hip g hg))
    · by_cases hfe : d.fp.isEmpty = true
      · rw [if_pos hfe] at h2
        cases h2
      · rw [if_neg hfe] at h2
        rcases List.mem_cons.mp h2 with rfl | h3
        · decide
        · rcases List.mem_map.mp h3 with ⟨g, hg, rfl⟩
          exact digitToChar_no_dash (of_decide_eq_true (List.all_eq_true.mp hfp g hg))
  have hbodyNT : NoTriple (digitsToChars d.ip
      ++ (if d.fp.isEmpty then [] else '.' :: digitsToChars d.fp)) :=
    noTriple_of_no_dash hbody
  cases hn : d.neg with
  | false =>
    have hr : d.render = digitsToChars d.ip
        ++ (if d.fp.isEmpty then [] else '.' :: digitsToChars d.fp) := by
      unfold Dec.render
      rw [hn, if_neg (by simp), List.nil_append]
    rw [hr]
    exact hbodyNT
  | true =>
    have hr : d.render = '-' :: (digitsToChars d.ip
        ++ (if d.fp.isEmpty then [] else '.' :: digitsToChars d.fp)) := by
      unfold Dec.render
      rw [hn, if_pos rfl, List.append_assoc]
      rfl
    rw [hr]
    apply noTriple_dash_cons hbodyNT
    intro c hc
    cases hipc : d.ip with
    | nil => exact absurd hipc hne
    | cons i0 ipt =>
      rw [hipc] at hc
      have hh : ((digitsToChars (i0 :: ipt)
          ++ (if d.fp.isEmpty then [] else '.' :: digitsToChars d.fp)) : Str).head?
          = some (digitToChar i0) := rfl
      rw [hh] at hc
      rw [← Option.some.inj hc]
      exact digitToChar_no_dash (digitsOk_head (hipc ▸ hip))

/-- No character of a well-formed key is a dash. -/
theorem key_no_dash {k : Str} (hk : wfKey k = true) : ∀ x ∈ k, ('-' == x) = false := by
  obtain ⟨c, t, rfl, hc, hw⟩ := wfKey_parts hk
  intro x hx
  rcases List.mem_cons.mp hx with rfl | hxt
  · exact ident_no_dash hc
  · exact word_no_dash (hw x hxt)

/-- A well-formed key has no newline. -/
theorem key_not_nl {k : Str} (hk : wfKey k = true) : '\n' ∉ k := by
  obtain ⟨c, t, rfl, hc, hw⟩ := wfKey_parts hk
  intro hx
  rcases List.mem_cons.mp hx with heq | hxt
  · rw [← heq] at hc
    exact absurd hc (by decide)
  · exact absurd (hw _ hxt) (by decide)

/-- Properties of a serialized scalar line. -/
theorem scalar_line_props {k s : Str} (hk : wfKey k = true)
    (hsNT : NoTriple s) (hsNl : '\n' ∉ s) :
    NoTriple (k ++ ':' :: ' ' :: s) ∧ '\n' ∉ (k ++ ':' :: ' ' :: s)
      ∧ ∃ c ∈ (k ++ ':' :: ' ' :: s), isWsChar c = false := by
  obtain ⟨c, t, hkc, hc, hw⟩ := wfKey_parts hk
  refine ⟨?_, ?_, ?_⟩
  · refine noTriple_append (noTriple_of_no_dash (key_no_dash hk)) ?_ ?_
    · exact noTriple_cons (by decide) (noTriple_cons (by decide) hsNT)
    · intro x hx
      rw [List.head?_cons] at hx
      rw [← Option.some.inj hx]
      decide
  · intro hmem
    rcases List.mem_append.mp hmem with h1 | h2
    · exact key_not_nl hk h1
    · rcases List.mem_cons.mp h2 with heq | h3
      · exact absurd heq (by decide)
      · rcases List.mem_cons.mp h3 with heq | h4
        · exact absurd heq (by decide)
        · exact hsNl h4
  · refine ⟨c, ?_, ident_not_ws hc⟩
    rw [hkc]
    exact List.mem_append_left _ (List.mem_cons_self _ _)

/-- Properties of a serialized list-header line. -/
theorem header_line_props {k : Str} (hk : wfKey k = true) :
    NoTriple (k ++ [':']) ∧ '\n' ∉ (k ++ [':'])
      ∧ ∃ c ∈ (k ++ [':']), isWsChar c = false := by
  obtain ⟨c, t, hkc, hc, hw⟩ := wfKey_parts hk
  refine ⟨?_, ?_, ?_⟩
  · refine noTriple_append (noTriple_of_no_dash (key_no_dash hk)) ?_ ?_
    · refine noTriple_of_no_dash (fun x hx => ?_)
      rw [List.mem_singleton.mp hx]
      decide
    · intro x hx
      rw [List.head?_cons] at hx
      rw [← Option.some.inj hx]
      decide
  · intro hmem
    rcases List.mem_append.mp hmem with h1 | h2
    · exact key_not_nl hk h1
    · exact absurd (List.mem_singleton.mp h2) (by decide)
  · refine ⟨c, ?_, ident_not_ws hc⟩
    rw [hkc]
    exact List.mem_append_left _ (List.mem_cons_self _ _)

/-- Properties of a serialized array-item line. -/
theorem item_line_props {it : Str} (hit : wfItem it = true) :
    NoTriple ("  - ".toList ++ it) ∧ '\n' ∉ ("  - ".toList ++ it)
      ∧ ∃ c ∈ ("  - ".toList ++ it), isWsChar c = false := by
  obtain ⟨hne, htr, hnl, htd⟩ := wfItem_parts hit
  refine ⟨?_, ?_, ?_⟩
  · refine noTriple_append_last ?_ (noTriple_of_hasTripleDash htd) ?_
    · exact noTriple_of_findSubAux_none (by decide)
    · intro x hx
      have hg : ("  - ".toList : Str).getLast? = some ' ' := by decide
      rw [hg] at hx
      rw [← Option.some.inj hx]
      decide
  · intro hmem
    rcases List.mem_append.mp hmem with h1 | h2
    · exact absurd h1 (by decide)
    · exact hnl h2
  · exact ⟨'-', List.mem_append_left _ (by decide), by decide⟩

/-- Every serialized entry line is delimiter-free, single-line, and holds a
non-whitespace character. -/
theorem entryLines_props {k : Str} {v : JsVal} (hk : wfKey k = true)
    (hv : wfVal v = true) :
    ∀ l ∈ entryLines (k, v), NoTriple l ∧ '\n' ∉ l
      ∧ ∃ c ∈ l, isWsChar c = false := by
  cases v with
  | str s =>
    obtain ⟨htr, hnl, htd, _, _, _⟩ := wfStrVal_parts hv
    intro l hl
    have hl2 : l = k ++ ':' :: ' ' :: s := by
      have h3 : l ∈ [k ++ ": ".toList ++ jsValToStr (JsVal.str s)] := hl
      rw [List.mem_singleton.mp h3, List.append_assoc]
      rfl
    rw [hl2]
    exact scalar_line_props hk (noTriple_of_hasTripleDash htd) hnl
  | bool b =>
    intro l hl
    cases b with
    | true =>
      have hl2 : l = k ++ ':' :: ' ' :: "true".toList := by
        have h3 : l ∈ [k ++ ": ".toList ++ jsValToStr (JsVal.bool true)] := hl
        rw [List.mem_singleton.mp h3, List.append_assoc]
        rfl
      rw [hl2]
      exact scalar_line_props hk (noTriple_of_findSubAux_none (by decide)) (by decide)
    | false =>
      have hl2 : l = k ++ ':' :: ' ' :: "false".toList := by
        have h3 : l ∈ [k ++ ": ".toList ++ jsValToStr (JsVal.bool false)] := hl
        rw [List.mem_singleton.mp h3, List.append_assoc]
        rfl
      rw [hl2]
      exact scalar_line_props hk (noTriple_of_findSubAux_none (by decide)) (by decide)
  | num d =>
    intro l hl
    have hl2 : l = k ++ ':' :: ' ' :: d.render := by
      have h3 : l ∈ [k ++ ": ".toList ++ jsValToStr (JsVal.num d)] := hl
      rw [List.mem_singleton.mp h3, List.append_assoc]
      rfl
    rw [hl2]
    exact scalar_line_props hk (noTriple_render hv)
      (fun hmem => absurd (render_no_ws hv '\n' hmem) (by decide))
  | list items =>
    intro l hl
    have hv2 : ((!items.isEmpty) && items.all wfItem) = true := hv
    rw [Bool.and_eq_true] at hv2
    have h3 : l ∈ (k ++ ":".toList) :: items.map (fun it => "  - ".toList ++ it) := hl
    rcases List.mem_cons.mp h3 with rfl | h4
    · have hform : (k ++ ":".toList : Str) = k ++ [':'] := rfl
      rw [hform]
      exact header_line_props hk
    · rcases List.mem_map.mp h4 with ⟨it, hit, rfl⟩
      exact item_line_props (List.all_eq_true.mp hv2.2 it hit)

/-- Lift the per-line properties to all serialized metadata lines. -/
theorem entriesLines_props {md : Record} (hmd : wfEntries md = true) :
    ∀ l ∈ entriesLines md, NoTriple l ∧ '\n' ∉ l
      ∧ ∃ c ∈ l, isWsChar c = false := by
  intro l hl
  unfold entriesLines at hl
  rcases List.mem_flatten.mp hl with ⟨ls, hls, hlin⟩
  rcases List.mem_map.mp hls with ⟨e, hemd, rfl⟩
  have he : (wfKey e.1 && wfVal e.2) = true := List.all_eq_true.mp hmd e hemd
  rw [Bool.and_eq_true] at he
  rcases e with ⟨k, v⟩
  exact entryLines_props he.1 he.2 l hlin

/-- The adjusted serialized lines have no newline. -/
theorem adjusted_no_nl {md : Record} (hmd : wfEntries md = true) :
    ∀ l ∈ adjustLast (entriesLines md), '\n' ∉ l := by
  intro l hl
  rcases mem_adjustLast hl with ⟨m, hm, heq | heq⟩
  · rw [heq]
    exact (entriesLines_props hmd m hm).2.1
  · rw [heq]
    intro hx
    exact (entriesLines_props hmd m hm).2.1 (mem_of_mem_trimEnd hx)

/-- The first adjusted serialized line is never an array item. -/
theorem adjustLast_entries_head {md : Record} (hmd : wfEntries md = true) :
    ∀ r, (adjustLast (entriesLines md)).head? = some r
      → isArrayItemLine r = false := by
  cases md with
  | nil => intro r hr; exact Option.noConfusion hr
  | cons e t =>
    rcases e with ⟨k, v⟩
    have he : (wfKey k && wfVal v) = true :=
      List.all_eq_true.mp hmd _ (List.mem_cons_self _ _)
    rw [Bool.and_eq_true] at he
    obtain ⟨c, kt, hkc, hc, hw⟩ := wfKey_parts he.1
    rcases entryLines_shape k v with ⟨tl, rest0, hshape⟩
    intro r hr
    rw [entriesLines_cons, hshape, List.cons_append] at hr
    have hhead : ((k ++ tl : Str)).head? = some c := by
      rw [hkc]
      rfl
    rcases adjustLast_cons_head (k ++ tl) (rest0 ++ entriesLines t) with h1 | h1
    · rw [h1] at hr
      have hrr : r = trimEnd (k ++ tl) := (Option.some.inj hr).symm
      subst hrr
      refine isArrayItemLine_false_of_head (fun x hx => ?_)
      rw [head?_trimEnd hhead (ident_not_ws hc)] at hx
      rw [← Option.some.inj hx]
      exact ident_not_ws hc
    · rw [h1] at hr
      have hrr : r = k ++ tl := (Option.some.inj hr).symm
      subst hrr
      refine isArrayItemLine_false_of_head (fun x hx => ?_)
      rw [hhead] at hx
      rw [← Option.some.inj hx]
      exact ident_not_ws hc

/-- The lookahead is false when the next line is not an array item. -/
theorem nextLineIsItem_false {REST : List Str}
    (hrest : ∀ r, REST.head? = some r → isArrayItemLine r = false) :
    nextLineIsItem REST = false := by
  cases REST with
  | nil => rfl
  | cons r t => exact hrest r rfl

/-- One loop iteration on a well-formed key line, in closed form. -/
theorem parseLines_keyline (k : Str) (tail : Str) (rest : List Str) (acc : Record)
    (hk : wfKey k = true) :
    parseLines ((k ++ ':' :: tail) :: rest) acc
      = if (trim (tail.dropWhile isWsChar)).isEmpty && nextLineIsItem rest then
          parseLines (rest.dropWhile isArrayItemLine)
            (upsert acc k (.list (collectArrayItems rest)))
        else
          parseLines rest (upsert acc k (parseValue (trim (tail.dropWhile isWsChar)))) := by
  rw [parseLines_cons, matchKeyLine_entry _ hk]

/-- The loop consumes one serialized entry and appends it to the accumulator
when the following lines do not start with an array item. -/
theorem parseLines_entry_step {k : Str} {v : JsVal} (REST : List Str) (acc : Record)
    (hk : wfKey k = true) (hv : wfVal v = true)
    (hacc : ∀ e ∈ acc, e.1 ≠ k)
    (hrest : ∀ r, REST.head? = some r → isArrayItemLine r = false) :
    parseLines (entryLines (k, v) ++ REST) acc
      = parseLines REST (acc ++ [(k, v)]) := by
  cases v with
  | str s =>
    obtain ⟨htr, hnl, htd, hnt, hnf, hnp⟩ := wfStrVal_parts hv
    have hline : entryLines (k, JsVal.str s) ++ REST
        = (k ++ ':' :: ' ' :: s) :: REST := by
      show [k ++ ": ".toList ++ jsValToStr (JsVal.str s)] ++ REST = _
      rw [List.append_assoc]
      rfl
    rw [hline, parseLines_keyline _ _ _ _ hk]
    have hdw : ((' ' :: s : Str)).dropWhile isWsChar = s := by
      rw [List.dropWhile_cons, if_pos (by decide)]
      exact trimStart_of_trim_eq htr
    rw [hdw, htr, nextLineIsItem_false hrest, Bool.and_false,
      if_neg Bool.false_ne_true]
    have hpv : parseValue s = JsVal.str s := by
      cases s with
      | nil => rfl
      | cons c s2 => exact parseValue_wfStr hv (by simp)
    rw [hpv, upsert_append _ hacc]
  | bool b =>
    cases b with
    | true =>
      have hline : entryLines (k, JsVal.bool true) ++ REST
          = (k ++ ':' :: ' ' :: "true".toList) :: REST := by
        show [k ++ ": ".toList ++ jsValToStr (JsVal.bool true)] ++ REST = _
        rw [List.append_assoc]
        rfl
      rw [hline, parseLines_keyline _ _ _ _ hk]
      have hdw : ((' ' :: "true".toList : Str)).dropWhile isWsChar
          = "true".toList := by decide
      have htrm : trim ("true".toList : Str) = "true".toList := by decide
      rw [hdw, htrm, nextLineIsItem_false hrest, Bool.and_false,
        if_neg Bool.false_ne_true]
      have hpv : parseValue ("true".toList : Str) = JsVal.bool true := by decide
      rw [hpv, upsert_append _ hacc]
    | false =>
      have hline : entryLines (k, JsVal.bool false) ++ REST
          = (k ++ ':' :: ' ' :: "false".toList) :: REST := by
        show [k ++ ": ".toList ++ jsValToStr (JsVal.bool false)] ++ REST = _
        rw [List.append_assoc]
        rfl
      rw [hline, parseLines_keyline _ _ _ _ hk]
      have hdw : ((' ' :: "false".toList : Str)).dropWhile isWsChar
          = "false".toList := by decide
      have htrm : trim ("false".toList : Str) = "false".toList := by decide
      rw [hdw, htrm, nextLineIsItem_false hrest, Bool.and_false,
        if_neg Bool.false_ne_true]
      have hpv : parseValue ("false".toList : Str) = JsVal.bool false := by decide
      rw [hpv, upsert_append _ hacc]
  | num d =>
    have hline : entryLines (k, JsVal.num d) ++ REST
        = (k ++ ':' :: ' ' :: d.render) :: REST := by
      show [k ++ ": ".toList ++ jsValToStr (JsVal.num d)] ++ REST = _
      rw [List.append_assoc]
      rfl
    rw [hline, parseLines_keyline _ _ _ _ hk]
    have hdw : ((' ' :: d.render : Str)).dropWhile isWsChar = d.render := by
      rw [List.dropWhile_cons, if_pos (by decide)]
      exact dropWhile_head_no (fun x hx => render_no_ws hv x (mem_of_head?_some hx))
    have htrm : trim d.render = d.render := trim_eq_self_of_no_ws (render_no_ws hv)
    rw [hdw, htrm, nextLineIsItem_false hrest, Bool.and_false,
      if_neg Bool.false_ne_true]
    rw [parseValue_render hv, upsert_append _ hacc]
  | list items =>
    have hv2 : ((!items.isEmpty) && items.all wfItem) = true := hv
    rw [Bool.and_eq_true] at hv2
    have hitems_ne : items ≠ [] := by
      intro he
      rw [he] at hv2
      exact absurd hv2.1 (by decide)
    have hline : entryLines (k, JsVal.list items) ++ REST
        = (k ++ ':' :: []) :: (items.map (fun it => "  - ".toList ++ it) ++ REST) := by
      show ((k ++ ":".toList) :: items.map (fun it => "  - ".toList ++ it)) ++ REST = _
      rw [List.cons_append]
      rfl
    rw [hline, parseLines_keyline _ _ _ _ hk]
    have hnext : nextLineIsItem (items.map (fun it => "  - ".toList ++ it) ++ REST)
        = true := by
      cases hi : items with
      | nil => exact absurd hi hitems_ne
      | cons i0 it =>
        show nextLineIsItem ((("  - ".toList ++ i0)
          :: it.map (fun x => "  - ".toList ++ x)) ++ REST) = true
        rw [List.cons_append]
        exact isArrayItemLine_item i0
    rw [hnext]
    rw [if_pos (by decide)]
    have hwfi : ∀ x ∈ items, wfItem x = true :=
      fun x hx => List.all_eq_true.mp hv2.2 x hx
    obtain ⟨hcoll, hdrop⟩ := collectArrayItems_items hwfi hrest
    rw [hcoll, hdrop, upsert_append _ hacc]

/-- The loop consumes a final serialized entry whose last line was
right-trimmed by the block-level trim. -/
theorem parseLines_entry_last {k : Str} {v : JsVal} (acc : Record)
    (hk : wfKey k = true) (hv : wfVal v = true)
    (hacc : ∀ e ∈ acc, e.1 ≠ k) :
    parseLines (adjustLast (entryLines (k, v))) acc = acc ++ [(k, v)] := by
  cases v with
  | str s =>
    by_cases hse : s = []
    · subst hse
      have hadj : adjustLast (entryLines (k, JsVal.str [])) = [k ++ [':']] := by
        show [trimEnd (k ++ ": ".toList ++ jsValToStr (JsVal.str []))] = [k ++ [':']]
        have hform : (k ++ ": ".toList ++ jsValToStr (JsVal.str []) : Str)
            = (k ++ [':']) ++ [' '] := by
          show (k ++ ": ".toList) ++ [] = (k ++ [':']) ++ [' ']
          rw [List.append_nil, List.append_assoc]
          rfl
        rw [hform, trimEnd_concat_ws (by decide),
          trimEnd_eq_self_of_last (List.getLast?_concat k) (by decide)]
      rw [hadj, parseLines_keyline k [] [] acc hk]
      rw [show nextLineIsItem ([] : List Str) = false from rfl, Bool.and_false,
        if_neg Bool.false_ne_true, parseLines_nil]
      have hpv : parseValue (trim (([] : Str).dropWhile isWsChar)) = JsVal.str [] := rfl
      rw [hpv, upsert_append _ hacc]
    · have hadj : adjustLast (entryLines (k, JsVal.str s))
          = entryLines (k, JsVal.str s) := by
        cases hgl : s.getLast? with
        | none => exact absurd (List.getLast?_eq_none_iff.mp hgl) hse
        | some a =>
          obtain ⟨htr, _, _, _, _, _⟩ := wfStrVal_parts hv
          have hlineLast : ((k ++ ": ".toList) ++ jsValToStr (JsVal.str s) : Str).getLast?
              = some a := by
            rw [← suffix_getLast?
              (⟨k ++ ": ".toList, rfl⟩ : jsValToStr (JsVal.str s) <:+ _) hse]
            exact hgl
          show [trimEnd (k ++ ": ".toList ++ jsValToStr (JsVal.str s))] = _
          rw [trimEnd_eq_self_of_last hlineLast (getLast_not_ws_of_trim_eq htr hgl)]
          rfl
      rw [hadj, ← List.append_nil (entryLines (k, JsVal.str s)),
        parseLines_entry_step [] acc hk hv hacc (fun r hr => Option.noConfusion hr),
        parseLines_nil]
  | bool b =>
    cases b with
    | true =>
      have hadj : adjustLast (entryLines (k, JsVal.bool true))
          = entryLines (k, JsVal.bool true) := by
        have hlineLast : ((k ++ ": ".toList) ++ jsValToStr (JsVal.bool true) : Str).getLast?
            = some 'e' := by
          rw [← suffix_getLast?
            (⟨k ++ ": ".toList, rfl⟩ : jsValToStr (JsVal.bool true) <:+ _) (by decide)]
          decide
        show [trimEnd (k ++ ": ".toList ++ jsValToStr (JsVal.bool true))] = _
        rw [trimEnd_eq_self_of_last hlineLast (by decide)]
        rfl
      rw [hadj, ← List.append_nil (entryLines (k, JsVal.bool true)),
        parseLines_entry_step [] acc hk hv hacc (fun r hr => Option.noConfusion hr),
        parseLines_nil]
    | false =>
      have hadj : adjustLast (entryLines (k, JsVal.bool false))
          = entryLines (k, JsVal.bool false) := by
        have hlineLast : ((k ++ ": ".toList) ++ jsValToStr (JsVal.bool false) : Str).getLast?
            = some 'e' := by
          rw [← suffix_getLast?
            (⟨k ++ ": ".toList, rfl⟩ : jsValToStr (JsVal.bool false) <:+ _) (by decide)]
          decide
        show [trimEnd (k ++ ": ".toList ++ jsValToStr (JsVal.bool false))] = _
        rw [trimEnd_eq_self_of_last hlineLast (by decide)]
        rfl
      rw [hadj, ← List.append_nil (entryLines (k, JsVal.bool false)),
        parseLines_entry_step [] acc hk hv hacc (fun r hr => Option.noConfusion hr),
        parseLines_nil]
  | num d =>
    have hrne := render_ne_nil hv
    have hadj : adjustLast (entryLines (k, JsVal.num d))
        = entryLines (k, JsVal.num d) := by
      cases hgl : d.render.getLast? with
      | none => exact absurd (List.getLast?_eq_none_iff.mp hgl) hrne
      | some a =>
        have haws : isWsChar a = false := render_no_ws hv a (mem_of_getLast?_some hgl)
        have hlineLast : ((k ++ ": ".toList) ++ jsValToStr (JsVal.num d) : Str).getLast?
            = some a := by
          rw [← suffix_getLast?
            (⟨k ++ ": ".toList, rfl⟩ : jsValToStr (JsVal.num d) <:+ _) hrne]
          exact hgl
        show [trimEnd (k ++ ": ".toList ++ jsValToStr (JsVal.num d))] = _
        rw [trimEnd_eq_self_of_last hlineLast haws]
        rfl
    rw [hadj, ← List.append_nil (entryLines (k, JsVal.num d)),
      parseLines_entry_step [] acc hk hv hacc (fun r hr => Option.noConfusion hr),
      parseLines_nil]
  | list items =>
    have hv2 : ((!items.isEmpty) && items.all wfItem) = true := hv
    rw [Bool.and_eq_true] at hv2
    have hitems_ne : items ≠ [] := by
      intro he
      rw [he] at hv2
      exact absurd hv2.1 (by decide)
    obtain ⟨li, hli⟩ : ∃ li, items.getLast? = some li := by
      cases hgl : items.getLast? with
      | none => exact absurd (List.getLast?_eq_none_iff.mp hgl) hitems_ne
      | some li => exact ⟨li, rfl⟩
    obtain ⟨pre, hpre⟩ := List.getLast?_eq_some_iff.mp hli
    have hwfli : wfItem li = true := List.all_eq_true.mp hv2.2 li (by
      rw [hpre]
      exact List.mem_append_right _ (List.mem_singleton.mpr rfl))
    obtain ⟨hlne, hltr, _, _⟩ := wfItem_parts hwfli
    have hadj : adjustLast (entryLines (k, JsVal.list items))
        = entryLines (k, JsVal.list items) := by
      apply adjustLast_eq_self (l := "  - ".toList ++ li)
      · show ((k ++ ":".toList) :: items.map (fun it => "  - ".toList ++ it)).getLast? = _
        have hform : (k ++ ":".toList) :: items.map (fun it => "  - ".toList ++ it)
            = ((k ++ ":".toList) :: pre.map (fun it => "  - ".toList ++ it))
              ++ ["  - ".toList ++ li] := by
          rw [hpre, List.map_append, List.cons_append]
          rfl
        rw [hform, List.getLast?_concat]
      · cases hgl2 : li.getLast? with
        | none => exact absurd (List.getLast?_eq_none_iff.mp hgl2) hlne
        | some a =>
          have hl2 : ("  - ".toList ++ li : Str).getLast? = some a := by
            rw [← suffix_getLast? (⟨"  - ".toList, rfl⟩ : li <:+ _) hlne]
            exact hgl2
          exact trimEnd_eq_self_of_last hl2 (getLast_not_ws_of_trim_eq hltr hgl2)
    rw [hadj, ← List.append_nil (entryLines (k, JsVal.list items)),
      parseLines_entry_step [] acc hk hv hacc (fun r hr => Option.noConfusion hr),
      parseLines_nil]

/-- The loop decodes a full block of adjusted serialized entries, appending
them in order to the accumulator. -/
theorem parseLines_entries : ∀ (md : Record) (acc : Record),
    wfEntries md = true → (md.map Prod.fst).Nodup →
    (∀ e ∈ acc, ∀ e2 ∈ md, e.1 ≠ e2.1) →
    parseLines (adjustLast (entriesLines md)) acc = acc ++ md := by
  intro md
  induction md with
  | nil =>
    intro acc _ _ _
    rw [List.append_nil]
    rfl
  | cons e t ih =>
    intro acc hwf hnodup hacc
    unfold wfEntries at hwf
    rw [List.all_cons, Bool.and_eq_true] at hwf
    have hwfe := hwf.1
    rw [Bool.and_eq_true] at hwfe
    have hwft : wfEntries t = true := hwf.2
    have hnodup_t : (t.map Prod.fst).Nodup := by
      rw [List.map_cons, List.nodup_cons] at hnodup
      exact hnodup.2
    have hnotmem : e.1 ∉ t.map Prod.fst := by
      rw [List.map_cons, List.nodup_cons] at hnodup
      exact hnodup.1
    rcases e with ⟨k, v⟩
    cases t with
    | nil =>
      show parseLines (adjustLast (entriesLines [(k, v)])) acc = acc ++ [(k, v)]
      rw [entriesLines_cons, show (entriesLines ([] : Record)) = [] from rfl,
        List.append_nil]
      exact parseLines_entry_last acc hwfe.1 hwfe.2
        (fun e2 he2 => hacc e2 he2 (k, v) (List.mem_cons_self _ _))
    | cons e2 t2 =>
      rw [entriesLines_cons,
        adjustLast_append (entriesLines_ne_nil (by simp)),
        parseLines_entry_step _ acc hwfe.1 hwfe.2
          (fun e3 he3 => hacc e3 he3 (k, v) (List.mem_cons_self _ _))
          (adjustLast_entries_head hwft)]
      rw [ih (acc ++ [(k, v)]) hwft hnodup_t (by
        intro e3 he3 e4 he4
        rcases List.mem_append.mp he3 with h1 | h2
        · exact hacc e3 h1 e4 (List.mem_cons_of_mem _ he4)
        · rw [List.mem_singleton.mp h2]
          intro heq
          have h5 : e4.1 ∈ (e2 :: t2).map Prod.fst := List.mem_map_of_mem Prod.fst he4
          rw [← heq] at h5
          exact hnotmem h5)]
      rw [List.append_assoc]
      rfl

/-- Decoding a document assembled from a delimiter-free block framed by the
two fences: the opening fence is found, the closing fence is located right
after the block, and the parts are cut back out. -/
theorem parseFrontmatter_shape (X body : Str) (hX : NoTriple X)
    (hlast : ∀ c, X.getLast? = some c → ('-' == c) = false) :
    parseFrontmatter ("---".toList ++ (X ++ ("---".toList ++ '\n' :: '\n' :: body)))
      = if (trim X).isEmpty
        then ⟨[], trim ('\n' :: body)⟩
        else ⟨parseLines (splitNl (trim X)) [], trim ('\n' :: body)⟩ := by
  have h3len : ("---".toList : Str).length = 3 := rfl
  have hh : (("---".toList ++ (X ++ ("---".toList ++ '\n' :: '\n' :: body))) : Str).head?
      = some '-' := rfl
  have htrim : trimStart ("---".toList ++ (X ++ ("---".toList ++ '\n' :: '\n' :: body)))
      = "---".toList ++ (X ++ ("---".toList ++ '\n' :: '\n' :: body)) := by
    refine dropWhile_head_no (fun c hc => ?_)
    rw [hh] at hc
    rw [← Option.some.inj hc]
    decide
  have hpre : ("---".toList).isPrefixOf
      ("---".toList ++ (X ++ ("---".toList ++ '\n' :: '\n' :: body))) = true := by
    show (('-' == '-') && (('-' == '-') && (('-' == '-')
        && (([] : Str).isPrefixOf (X ++ ("---".toList ++ '\n' :: '\n' :: body)))))) = true
    rw [nil_isPrefixOf_true]
    decide
  have hdrop3 : (("---".toList ++ (X ++ ("---".toList ++ '\n' :: '\n' :: body))) : Str).drop 3
      = X ++ ("---".toList ++ '\n' :: '\n' :: body) := rfl
  have htriple : findSubAux "---".toList ("---".toList ++ '\n' :: '\n' :: body)
      = some 0 := findSubAux_triple_head ('\n' :: '\n' :: body)
  have hfind : findSubFrom ("---".toList ++ (X ++ ("---".toList ++ '\n' :: '\n' :: body)))
      "---".toList 3 = some (X.length + 3) := by
    unfold findSubFrom
    rw [hdrop3, findSubAux_after_block _ hX hlast, htriple]
    simp
  have hlen1 : (("---".toList ++ X) : Str).length = X.length + 3 := by
    rw [List.length_append, h3len]
    omega
  have hslice : slice ("---".toList ++ (X ++ ("---".toList ++ '\n' :: '\n' :: body)))
      3 (X.length + 3) = X := by
    unfold slice
    rw [← List.append_assoc, List.take_left' hlen1]
    exact List.drop_left' h3len
  have hS2 : ("---".toList ++ (X ++ ("---".toList ++ '\n' :: '\n' :: body)) : Str)
      = (("---".toList ++ X) ++ "---".toList) ++ ('\n' :: '\n' :: body) := by
    simp [List.append_assoc]
  have hlen2 : ((("---".toList ++ X) ++ "---".toList) : Str).length
      = (X.length + 3) + 3 := by
    rw [List.length_append, List.length_append, h3len]
    omega
  have hrest : (("---".toList ++ (X ++ ("---".toList ++ '\n' :: '\n' :: body))) : Str).drop
      ((X.length + 3) + 3) = '\n' :: ('\n' :: body) := by
    rw [hS2, List.drop_left' hlen2]
  have hcontent : (if '\n' = '\n' then ('\n' :: body : Str)
      else '\n' :: ('\n' :: body)) = '\n' :: body := if_pos rfl
  simp only [parseFrontmatter, htrim, hpre, Bool.not_true, Bool.false_eq_true,
    if_false, hfind, hslice, hrest, hcontent, if_true]

/-- A nonempty head survives an append. -/
theorem head?_append_some {α : Type} {l1 : List α} {a : α} (l2 : List α)
    (h : l1.head? = some a) : (l1 ++ l2).head? = some a := by
  cases l1 with
  | nil => exact absurd h (by simp)
  | cons x t =>
    rw [List.head?_cons] at h
    rw [List.cons_append, List.head?_cons]
    exact h

/-- C1 counterexample: the round-trip law fails as stated for scalar values
whose rendering collides with the codec's coercions. The literal string value
"true" is serialized as the characters true and parsed back as the boolean
true, so decode (encode metadata body) returns different metadata. -/
theorem frontmatter_roundtrip_counterexample :
    parseFrontmatter (stringifyFrontmatter
        [("k".toList, JsVal.str "true".toList)] [])
      ≠ ⟨[("k".toList, JsVal.str "true".toList)], []⟩ := by decide

/-- C1 (corrected): the codec round-trip law holds for every metadata map
with well-formed keys and distinct keys whose values are framable scalars
(trim-invariant, single-line, delimiter-free literal strings that do not
collide with the boolean or numeric coercions; booleans; canonical decimal
numbers) or nonempty lists of framable item strings, and every trim-invariant
body: parseFrontmatter (stringifyFrontmatter metadata body) returns exactly
that metadata map and exactly that body. -/
theorem frontmatter_roundtrip (md : Record) (body : Str)
    (hmd : wfEntries md = true)
    (hkeys : (md.map Prod.fst).Nodup)
    (hbody : trim body = body) :
    parseFrontmatter (stringifyFrontmatter md body)
      = ⟨md, body⟩ := by
  have hcontent2 : trim ('\n' :: body) = body := by
    rw [trim_cons_ws (by decide), hbody]
  cases md with
  | nil =>
    have hS : stringifyFrontmatter [] body
        = "---".toList ++ (['\n'] ++ ("---".toList ++ '\n' :: '\n' :: body)) := rfl
    rw [hS, parseFrontmatter_shape ['\n'] body
      (noTriple_of_findSubAux_none (by decide))
      (fun c hc => by
        rw [List.getLast?_singleton] at hc
        rw [← Option.some.inj hc]
        decide)]
    rw [if_pos (by decide), hcontent2]
  | cons e mdt =>
    rcases e with ⟨k, v⟩
    have hmdne : ((k, v) :: mdt : Record) ≠ [] := by simp
    have hELne : entriesLines ((k, v) :: mdt) ≠ [] := entriesLines_ne_nil hmdne
    have he : (wfKey (k, v).1 && wfVal (k, v).2) = true :=
      List.all_eq_true.mp hmd (k, v) (List.mem_cons_self _ _)
    rw [Bool.and_eq_true] at he
    obtain ⟨c0, kt, hkc0, hc0, hw0⟩ := wfKey_parts he.1
    have hkc : k = c0 :: kt := hkc0
    rcases entryLines_shape k v with ⟨tl, rest0, hshape⟩
    have hEL : entriesLines ((k, v) :: mdt)
        = (k ++ tl) :: (rest0 ++ entriesLines mdt) := by
      rw [entriesLines_cons, hshape, List.cons_append]
    have hJhead : (joinNl (entriesLines ((k, v) :: mdt))).head? = some c0 := by
      rw [hEL, hkc, List.cons_append]
      exact joinNl_head c0 (kt ++ tl) _
    have hJNT : NoTriple (joinNl (entriesLines ((k, v) :: mdt))) :=
      noTriple_joinNl (fun l hl => (entriesLines_props hmd l hl).1)
    have hXNT : NoTriple ('\n' :: (joinNl (entriesLines ((k, v) :: mdt)) ++ ['\n'])) := by
      refine noTriple_cons (by decide) (noTriple_append hJNT ?_ ?_)
      · exact noTriple_of_findSubAux_none (by decide)
      · intro c hc
        rw [List.head?_cons] at hc
        rw [← Option.some.inj hc]
        decide
    have hXlastEq : (('\n' :: (joinNl (entriesLines ((k, v) :: mdt)) ++ ['\n'])) : Str).getLast?
        = some '\n' := by
      show ((('\n' :: joinNl (entriesLines ((k, v) :: mdt))) ++ ['\n']) : Str).getLast?
        = some '\n'
      exact List.getLast?_concat _
    have hS : stringifyFrontmatter ((k, v) :: mdt) body
        = "---".toList ++ (('\n' :: (joinNl (entriesLines ((k, v) :: mdt)) ++ ['\n']))
          ++ ("---".toList ++ '\n' :: '\n' :: body)) := by
      show joinNl ("---".toList :: (entriesLines ((k, v) :: mdt)
        ++ ["---".toList, [], body])) = _
      rw [joinNl_cons (by simp), joinNl_append hELne (by simp),
        show joinNl (["---".toList, [], body] : List Str)
          = "---".toList ++ '\n' :: '\n' :: body from rfl]
      simp [List.append_assoc]
    rw [hS, parseFrontmatter_shape _ body hXNT
      (fun c hc => by
        rw [hXlastEq] at hc
        rw [← Option.some.inj hc]
        decide)]
    have htrimX : trim ('\n' :: (joinNl (entriesLines ((k, v) :: mdt)) ++ ['\n']))
        = joinNl (adjustLast (entriesLines ((k, v) :: mdt))) := by
      rw [trim_cons_ws (by decide)]
      unfold trim
      rw [show trimStart (joinNl (entriesLines ((k, v) :: mdt)) ++ ['\n'])
          = joinNl (entriesLines ((k, v) :: mdt)) ++ ['\n'] from
        dropWhile_head_no (fun x hx => by
          rw [head?_append_some ['\n'] hJhead] at hx
          rw [← Option.some.inj hx]
          exact ident_not_ws hc0)]
      rw [trimEnd_concat_ws (by decide)]
      exact trimEnd_joinNl (fun l hl => (entriesLines_props hmd l hl).2.2)
    rw [htrimX]
    have hempty : (joinNl (adjustLast (entriesLines ((k, v) :: mdt)))).isEmpty
        = false := by
      rw [hEL]
      cases hR : rest0 ++ entriesLines mdt with
      | nil =>
        show (joinNl ((trimEnd (k ++ tl)) :: ([] : List Str))).isEmpty = false
        refine joinNl_isEmpty_false _ (trimEnd_ne_nil_of_mem ⟨c0, ?_, ident_not_ws hc0⟩)
        rw [hkc]
        exact List.mem_append_left _ (List.mem_cons_self _ _)
      | cons r R2 =>
        show (joinNl ((k ++ tl) :: adjustLast (r :: R2))).isEmpty = false
        refine joinNl_isEmpty_false _ ?_
        rw [hkc]
        exact List.cons_ne_nil _ _
    rw [hempty, if_neg Bool.false_ne_true]
    rw [splitNl_joinNl (adjusted_no_nl hmd) (adjustLast_ne_nil hELne)]
    rw [parseLines_entries _ [] hmd hkeys
      (fun e2 he2 => absurd he2 (List.not_mem_nil _))]
    rw [List.nil_append, hcontent2]

/-- C1 witness: a concrete well-formed metadata map covering all four value
shapes and a multi-line body round-trip exactly. -/
theorem frontmatter_roundtrip_check :
    wfEntries [("category".toList, JsVal.str "ideas".toList),
        ("confidence".toList, JsVal.num ⟨false, [0], [8, 5]⟩),
        ("actionable".toList, JsVal.bool true),
        ("tags".toList, JsVal.list ["ai".toList, "tools".toList]),
        ("note".toList, JsVal.str [])] = true
    ∧ (([("category".toList, JsVal.str "ideas".toList),
        ("confidence".toList, JsVal.num ⟨false, [0], [8, 5]⟩),
        ("actionable".toList, JsVal.bool true),
        ("tags".toList, JsVal.list ["ai".toList, "tools".toList]),
        ("note".toList, JsVal.str [])] : Record).map Prod.fst).Nodup
    ∧ trim "Idea line one.\nMore detail.".toList = "Idea line one.\nMore detail.".toList
    ∧ parseFrontmatter (stringifyFrontmatter
        [("category".toList, JsVal.str "ideas".toList),
          ("confidence".toList, JsVal.num ⟨false, [0], [8, 5]⟩),
          ("actionable".toList, JsVal.bool true),
          ("tags".toList, JsVal.list ["ai".toList, "tools".toList]),
          ("note".toList, JsVal.str [])] "Idea line one.\nMore detail.".toList)
      = ⟨[("category".toList, JsVal.str "ideas".toList),
          ("confidence".toList, JsVal.num ⟨false, [0], [8, 5]⟩),
          ("actionable".toList, JsVal.bool true),
          ("tags".toList, JsVal.list ["ai".toList, "tools".toList]),
          ("note".toList, JsVal.str [])], "Idea line one.\nMore detail.".toList⟩ :=
  ⟨by decide, by decide, by decide,
    frontmatter_roundtrip _ _ (by decide) (by decide) (by decide)⟩

end Relay
